import Mathlib

/-!
Verified-rewrite metadata tool (`example/metadata_checksum.c`)

A shallow embedding of the checksum, the temporary path generator and the
`main` orchestration of `metadata_checksum.c`, with the properties of the
specification stated and proved over it.

Conventions of the embedding:
* `uint32_t` values are natural numbers; every operation of `crc32` (xor, and,
  right shift, table lookup) keeps values below `2^32`, so no reduction is needed;
* `int` values are integers, reduced to the range `-2^31 .. 2^31 - 1` by `wrapInt`
  where the source adds;
* `size_t` values are natural numbers, reduced modulo `2^64` where the source adds;
* memory blocks are lists of character codes, C strings end at the first `0`;
* a call the C standard leaves undefined (a read or write out of bounds, a
  string without terminator) makes the embedded function return `none`.
-/

namespace MetadataChecksum

/-! ## Streaming checksum -/

/-- An `unsigned char` of a decoded audio buffer. -/
abbrev UChar := Fin 256

/-- The static table `crc_table[256]`, lines 40-93. -/
def crc_table : List Nat := [
    0x00000000, 0x77073096, 0xee0e612c, 0x990951ba, 0x076dc419,
    0x706af48f, 0xe963a535, 0x9e6495a3, 0x0edb8832, 0x79dcb8a4,
    0xe0d5e91e, 0x97d2d988, 0x09b64c2b, 0x7eb17cbd, 0xe7b82d07,
    0x90bf1d91, 0x1db71064, 0x6ab020f2, 0xf3b97148, 0x84be41de,
    0x1adad47d, 0x6ddde4eb, 0xf4d4b551, 0x83d385c7, 0x136c9856,
    0x646ba8c0, 0xfd62f97a, 0x8a65c9ec, 0x14015c4f, 0x63066cd9,
    0xfa0f3d63, 0x8d080df5, 0x3b6e20c8, 0x4c69105e, 0xd56041e4,
    0xa2677172, 0x3c03e4d1, 0x4b04d447, 0xd20d85fd, 0xa50ab56b,
    0x35b5a8fa, 0x42b2986c, 0xdbbbc9d6, 0xacbcf940, 0x32d86ce3,
    0x45df5c75, 0xdcd60dcf, 0xabd13d59, 0x26d930ac, 0x51de003a,
    0xc8d75180, 0xbfd06116, 0x21b4f4b5, 0x56b3c423, 0xcfba9599,
    0xb8bda50f, 0x2802b89e, 0x5f058808, 0xc60cd9b2, 0xb10be924,
    0x2f6f7c87, 0x58684c11, 0xc1611dab, 0xb6662d3d, 0x76dc4190,
    0x01db7106, 0x98d220bc, 0xefd5102a, 0x71b18589, 0x06b6b51f,
    0x9fbfe4a5, 0xe8b8d433, 0x7807c9a2, 0x0f00f934, 0x9609a88e,
    0xe10e9818, 0x7f6a0dbb, 0x086d3d2d, 0x91646c97, 0xe6635c01,
    0x6b6b51f4, 0x1c6c6162, 0x856530d8, 0xf262004e, 0x6c0695ed,
    0x1b01a57b, 0x8208f4c1, 0xf50fc457, 0x65b0d9c6, 0x12b7e950,
    0x8bbeb8ea, 0xfcb9887c, 0x62dd1ddf, 0x15da2d49, 0x8cd37cf3,
    0xfbd44c65, 0x4db26158, 0x3ab551ce, 0xa3bc0074, 0xd4bb30e2,
    0x4adfa541, 0x3dd895d7, 0xa4d1c46d, 0xd3d6f4fb, 0x4369e96a,
    0x346ed9fc, 0xad678846, 0xda60b8d0, 0x44042d73, 0x33031de5,
    0xaa0a4c5f, 0xdd0d7cc9, 0x5005713c, 0x270241aa, 0xbe0b1010,
    0xc90c2086, 0x5768b525, 0x206f85b3, 0xb966d409, 0xce61e49f,
    0x5edef90e, 0x29d9c998, 0xb0d09822, 0xc7d7a8b4, 0x59b33d17,
    0x2eb40d81, 0xb7bd5c3b, 0xc0ba6cad, 0xedb88320, 0x9abfb3b6,
    0x03b6e20c, 0x74b1d29a, 0xead54739, 0x9dd277af, 0x04db2615,
    0x73dc1683, 0xe3630b12, 0x94643b84, 0x0d6d6a3e, 0x7a6a5aa8,
    0xe40ecf0b, 0x9309ff9d, 0x0a00ae27, 0x7d079eb1, 0xf00f9344,
    0x8708a3d2, 0x1e01f268, 0x6906c2fe, 0xf762575d, 0x806567cb,
    0x196c3671, 0x6e6b06e7, 0xfed41b76, 0x89d32be0, 0x10da7a5a,
    0x67dd4acc, 0xf9b9df6f, 0x8ebeeff9, 0x17b7be43, 0x60b08ed5,
    0xd6d6a3e8, 0xa1d1937e, 0x38d8c2c4, 0x4fdff252, 0xd1bb67f1,
    0xa6bc5767, 0x3fb506dd, 0x48b2364b, 0xd80d2bda, 0xaf0a1b4c,
    0x36034af6, 0x41047a60, 0xdf60efc3, 0xa867df55, 0x316e8eef,
    0x4669be79, 0xcb61b38c, 0xbc66831a, 0x256fd2a0, 0x5268e236,
    0xcc0c7795, 0xbb0b4703, 0x220216b9, 0x5505262f, 0xc5ba3bbe,
    0xb2bd0b28, 0x2bb45a92, 0x5cb36a04, 0xc2d7ffa7, 0xb5d0cf31,
    0x2cd99e8b, 0x5bdeae1d, 0x9b64c2b0, 0xec63f226, 0x756aa39c,
    0x026d930a, 0x9c0906a9, 0xeb0e363f, 0x72076785, 0x05005713,
    0x95bf4a82, 0xe2b87a14, 0x7bb12bae, 0x0cb61b38, 0x92d28e9b,
    0xe5d5be0d, 0x7cdcefb7, 0x0bdbdf21, 0x86d3d2d4, 0xf1d4e242,
    0x68ddb3f8, 0x1fda836e, 0x81be16cd, 0xf6b9265b, 0x6fb077e1,
    0x18b74777, 0x88085ae6, 0xff0f6a70, 0x66063bca, 0x11010b5c,
    0x8f659eff, 0xf862ae69, 0x616bffd3, 0x166ccf45, 0xa00ae278,
    0xd70dd2ee, 0x4e048354, 0x3903b3c2, 0xa7672661, 0xd06016f7,
    0x4969474d, 0x3e6e77db, 0xaed16a4a, 0xd9d65adc, 0x40df0b66,
    0x37d83bf0, 0xa9bcae53, 0xdebb9ec5, 0x47b2cf7f, 0x30b5ffe9,
    0xbdbdf21c, 0xcabac28a, 0x53b39330, 0x24b4a3a6, 0xbad03605,
    0xcdd70693, 0x54de5729, 0x23d967bf, 0xb3667a2e, 0xc4614ab8,
    0x5d681b02, 0x2a6f2b94, 0xb40bbe37, 0xc30c8ea1, 0x5a05df1b,
    0x2d02ef8d
]

/-- One iteration of the loop body of `crc32`, line 102:
`crc = crc_table[(crc ^ (*buf++)) & 0xff] ^ (crc >> 8)`. -/
def crc_step (crc : Nat) (b : UChar) : Nat :=
  crc_table.getD ((crc ^^^ b.val) &&& 0xff) 0 ^^^ (crc >>> 8)

/-- The loop `while (len--) ...` of `crc32`, lines 101-102, over the bytes that
follow `buf`. The loop stops when `len` is zero; reading past the end of the
buffer (also what a negative `len` leads to) is undefined: `none`. -/
def crc_loop (crc : Nat) : List UChar → Int → Option Nat
  | [], len => if len = 0 then some crc else none
  | b :: rest, len => if len = 0 then some crc else crc_loop (crc_step crc b) rest (len - 1)

/-- The function `crc32`, lines 95-105. A null `buf` is `none`. -/
def crc32 (crc : Nat) (buf : Option (List UChar)) (len : Int) : Option Nat :=
  match buf with
  | none => some 0
  | some bs => (crc_loop (crc ^^^ 0xffffffff) bs len).map (fun c => c ^^^ 0xffffffff)

/-- One reflected shift-and-conditionally-xor step of the standard CRC-32,
polynomial `0xEDB88320` (written from the specification). -/
def crc32_bit_step (c : Nat) : Nat :=
  if c &&& 1 = 1 then (c >>> 1) ^^^ 0xEDB88320 else c >>> 1

/-- The standard CRC-32 computed bit by bit (written from the specification):
initial register `0xFFFFFFFF`, each byte is xored into the register and followed
by eight reflected steps, final xor `0xFFFFFFFF`. -/
def crc32_reference (bs : List UChar) : Nat :=
  bs.foldl (fun c b => Nat.iterate crc32_bit_step 8 (c ^^^ b.val)) 0xFFFFFFFF ^^^ 0xFFFFFFFF

/-- The ASCII bytes of "123456789". -/
def check_input : List UChar := [49, 50, 51, 52, 53, 54, 55, 56, 57]

/-! ## Temp path generator -/

/-- A C string, given by the character codes that precede its terminating NUL. -/
abbrev CStr := List Nat

/-- The call `strlen(str)` on a memory block: the index of the first NUL, and
`none` when the block holds no NUL (the read runs out of the block). -/
def strlen : List Nat → Option Nat
  | [] => none
  | c :: rest => if c = 0 then some 0 else (strlen rest).map (fun k => k + 1)

/-- The call `strrchr(s, c)` for a character `c` other than NUL, on the
characters of the string: the index of the last occurrence of `c`. -/
def strrchr : List Nat → Nat → Option Nat
  | [], _ => none
  | x :: xs, c =>
    match strrchr xs c with
    | some k => some (k + 1)
    | none => if x = c then some 0 else none

/-- Store `data` into the block at offset `off`; `none` when the store would
run past the end of the block. -/
def write_at (mem : List Nat) (off : Nat) (data : List Nat) : Option (List Nat) :=
  if off + data.length ≤ mem.length then
    some (mem.take off ++ data ++ mem.drop (off + data.length))
  else none

/-- The call `memmove(mem + dst, mem + src, n)` inside one block: the `n` bytes are
read first, then stored. -/
def memmove (mem : List Nat) (dst src n : Nat) : Option (List Nat) :=
  if src + n ≤ mem.length then write_at mem dst ((mem.drop src).take n) else none

/-- The call `strncpy(mem + dst, src, n)`: exactly `n` bytes are stored, the
characters of `src` cut at `n`, padded with NUL when `src` is shorter. -/
def strncpy (mem : List Nat) (dst : Nat) (src : CStr) (n : Nat) : Option (List Nat) :=
  write_at mem dst (src.take n ++ List.replicate (n - src.length) 0)

/-- The string that `snprintf(prepend, 11, ".tmp%05d-", n)` leaves in `prepend`,
line 113. Here `n = rand() % 99999` lies in `0 .. 99998`, so `%05d` prints
exactly the five decimal digits of `n`, zero padded. -/
def snprintf_tmp (n : Nat) : CStr :=
  [46, 116, 109, 112,
   48 + n / 10000 % 10, 48 + n / 1000 % 10, 48 + n / 100 % 10, 48 + n / 10 % 10, 48 + n % 10,
   45]

/-- What a call of `tempfileify` leaves behind: the returned status, the block
`str` points to, and the stores made into the block, in order, each as
(offset, number of bytes). -/
structure TempfileifyResult where
  ret : Int
  mem : List Nat
  writes : List (Nat × Nat)
deriving DecidableEq

/-- The function `tempfileify(str, max_len)`, lines 107-122, on the block `str`
points to; `r` is the value returned by `rand()`. -/
def tempfileify (str : List Nat) (max_len : Nat) (r : Nat) : Option TempfileifyResult :=
  match strlen str with
  | none => none
  | some len =>
    if (len + 10) % 2 ^ 64 > max_len then some ⟨-1, str, []⟩
    else
      let n := r % 99999
      let prepend := snprintf_tmp n
      let slash := strrchr (str.take len) 47
      let pos := match slash with
        | some k => k + 1
        | none => 0
      let orig_len := len - pos
      match memmove str (pos + 10) pos orig_len with
      | none => none
      | some moved =>
        match strncpy moved pos prepend 10 with
        | none => none
        | some result => some ⟨0, result, [(pos + 10, orig_len), (pos, 10)]⟩

/-! ## The decode sessions and `main` -/

/-- The fields of `struct GrooveBuffer` read by `main`: `data[0]` (`none` for a
null pointer) and `size`. The structure is declared in `groove/groove.h`, which
is not among the sources; the fields have the types `main` uses them at
(`const unsigned char *` and `int`). -/
structure GrooveBuffer where
  data : Option (List UChar)
  size : Int
deriving DecidableEq

/-- An `int` result reduced to the range `-2^31 .. 2^31 - 1` of 32-bit signed integers
(the usual outcome of an overflow the C standard leaves undefined). -/
def wrapInt (x : Int) : Int := (x + 2 ^ 31) % 2 ^ 32 - 2 ^ 31

/-- The decode loop, lines 163-167 and 235-239, over the buffers the sink
delivers: `byte_count += buffer->size; crc = crc32(crc, buffer->data[0], buffer->size)`.
Returns the final `(byte_count, crc)`. -/
def scan_loop : List GrooveBuffer → Int → Nat → Option (Int × Nat)
  | [], byte_count, crc => some (byte_count, crc)
  | buffer :: rest, byte_count, crc =>
    match crc32 crc buffer.data buffer.size with
    | none => none
    | some crc1 => scan_loop rest (wrapInt (byte_count + buffer.size)) crc1

/-- The answers of the collaborators of one run of `main`: the C library
(`rand`, `malloc` with the initial content of the block, `rename`) and
libgroove (open, sink attach, the decoded buffers, save). -/
structure World where
  rand : Nat
  malloc : Option (Nat → Nat)
  open_original : Bool
  attach_original : Int
  session_original : List GrooveBuffer
  reopen_original : Bool
  save_as : Int
  open_temp : Bool
  attach_temp : Int
  session_temp : List GrooveBuffer
  rename : Int

/-- The calls of `main` that touch files or tags, with their arguments. -/
inductive Event where
  | file_open (path : CStr)
  | metadata_set (key : CStr) (value : Option CStr)
  | save_as (path : CStr)
  | rename (oldpath newpath : CStr)
deriving DecidableEq

/-- How a run of `main` ends: `return status` (`usage(exe)` prints and returns
1), `panic(message)`, or a call with undefined behaviour. -/
inductive Outcome where
  | returned (status : Int)
  | aborted (message : String)
  | undefined
deriving DecidableEq

/-- The characters of "--update". -/
def str_update : CStr := [45, 45, 117, 112, 100, 97, 116, 101]

/-- The characters of "--delete". -/
def str_delete : CStr := [45, 45, 100, 101, 108, 101, 116, 101]

/-- How the option loop ends: it ran to `i >= argc`, it returned `usage(exe)`,
it read `argv` outside `0 .. argc - 1`, or the iteration bound of the embedding
was used up. Each carries the metadata calls issued so far. -/
inductive LoopResult where
  | done (ops : List Event)
  | usage (ops : List Event)
  | out_of_bounds (ops : List Event)
  | out_of_fuel (ops : List Event)
deriving DecidableEq

/-- The option loop `for (int i = 2; i < argc; i += 1)`, lines 183-205, from
index `i` on, with `argc = argv.length`. The branch `else if (!filename)` is
never taken, `filename` being `argv[1]`. -/
def option_loop (argv : List CStr) : Nat → Nat → List Event → LoopResult
  | 0, i, ops => if i < argv.length then .out_of_fuel ops else .done ops
  | fuel + 1, i, ops =>
    if i < argv.length then
      match argv[i]? with
      | none => .out_of_bounds ops
      | some arg =>
        if arg = str_update then
          if i + 2 ≥ argv.length then .usage ops
          else
            match argv[i + 1]?, argv[i + 2]? with
            | some key, some value =>
              option_loop argv fuel (i + 2 + 1) (ops ++ [.metadata_set key (some value)])
            | _, _ => .out_of_bounds ops
        else if arg = str_delete then
          if i + 1 ≥ argv.length then .usage ops
          else
            match argv[i + 1]? with
            | some key => option_loop argv fuel (i + 1 + 1) (ops ++ [.metadata_set key none])
            | none => .out_of_bounds ops
        else .usage ops
    else .done ops

/-- The state of `main` after the plausibility guard of line 181. -/
structure Scanned where
  filename : CStr
  temp_filename : List Nat
  crc_begin : Nat
  byte_count_begin : Int
deriving DecidableEq

/-- A part of `main` either ends the run or hands over to the next part. -/
inductive Phase (α : Type) where
  | stop (outcome : Outcome) (trace : List Event)
  | next (state : α) (trace : List Event)
deriving DecidableEq

/-- Lines 135-142 of `main`: the block for the temp file name is allocated, the
file name copied into it and `tempfileify` applied. -/
def main_temp_filename (w : World) (filename : CStr) : Phase (List Nat) :=
  let temp_filename_size : Int := wrapInt (filename.length + 32)
  match w.malloc with
  | none => .stop (.aborted "out of memory") []
  | some content =>
    let block := (List.range (temp_filename_size % 2 ^ 64).toNat).map content
    match write_at block 0 (filename ++ [0]) with
    | none => .stop .undefined []
    | some temp_filename =>
      match tempfileify temp_filename (temp_filename_size % 2 ^ 64).toNat w.rand with
      | none => .stop .undefined []
      | some t =>
        if t.ret ≠ 0 then .stop (.aborted "temp filename too long") []
        else .next t.mem []

/-- Lines 144-181 of `main`: the scan of the original and the plausibility guard. -/
def main_scan (w : World) (filename : CStr) (temp_filename : List Nat) : Phase Scanned :=
  if w.open_original = false then
    .stop (.aborted "error opening %s") [.file_open filename]
  else if w.attach_original < 0 then
    .stop (.aborted "error attaching sink") [.file_open filename]
  else
    match scan_loop w.session_original 0 0 with
    | none => .stop .undefined [.file_open filename]
    | some (byte_count_begin, crc_begin) =>
      if w.reopen_original = false then
        .stop (.aborted "error opening %s") [.file_open filename, .file_open filename]
      else if byte_count_begin < 1024 then
        .stop (.aborted "too small, something is probably wrong.")
          [.file_open filename, .file_open filename]
      else
        .next ⟨filename, temp_filename, crc_begin, byte_count_begin⟩
          [.file_open filename, .file_open filename]

/-- Lines 124-181 of `main`: the argument count, the temp file name, the scan of
the original and the plausibility guard. -/
def main_begin (w : World) (argv : List CStr) : Phase Scanned :=
  if argv.length < 2 then .stop (.returned 1) []
  else
    match argv[1]? with
    | none => .stop .undefined []
    | some filename =>
      match main_temp_filename w filename with
      | .stop outcome trace => .stop outcome trace
      | .next temp_filename _ => main_scan w filename temp_filename

/-- Lines 246-253 of `main`: the comparison of the two fingerprints and the rename. -/
def main_verify (w : World) (s : Scanned) (temp : CStr) (crc_end : Nat) (byte_count_end : Int) :
    Outcome × List Event :=
  if s.crc_begin ≠ crc_end ∨ s.byte_count_begin ≠ byte_count_end then
    (.aborted "checksum failed", [])
  else if w.rename ≠ 0 then (.aborted "rename failed", [.rename temp s.filename])
  else (.returned 0, [.rename temp s.filename])

/-- Lines 206-244 of `main`: save to the temp file and scan it. The tag listing
of lines 206-208 only prints. The temp file name is first read as a string at
line 210. -/
def main_save (w : World) (s : Scanned) : Outcome × List Event :=
  match strlen s.temp_filename with
  | none => (.undefined, [])
  | some n =>
    let temp : CStr := s.temp_filename.take n
    if w.save_as < 0 then (.aborted "error saving file", [.save_as temp])
    else if w.open_temp = false then
      (.aborted "error opening %s", [.save_as temp, .file_open temp])
    else if w.attach_temp < 0 then
      (.aborted "error attaching sink", [.save_as temp, .file_open temp])
    else
      match scan_loop w.session_temp 0 0 with
      | none => (.undefined, [.save_as temp, .file_open temp])
      | some (byte_count_end, crc_end) =>
        let v := main_verify w s temp crc_end byte_count_end
        (v.1, [.save_as temp, .file_open temp] ++ v.2)

/-- Lines 183-254 of `main`: the option loop, then save, scan and verify. -/
def main_edit (w : World) (argv : List CStr) (s : Scanned) : Outcome × List Event :=
  match option_loop argv argv.length 2 [] with
  | .usage ops => (.returned 1, ops)
  | .out_of_bounds ops => (.undefined, ops)
  | .out_of_fuel ops => (.undefined, ops)
  | .done ops =>
    let r := main_save w s
    (r.1, ops ++ r.2)

/-- The function `main`, lines 124-254: how the run ends and the calls it made,
in order. `argc` is `argv.length`. -/
def main (w : World) (argv : List CStr) : Outcome × List Event :=
  match main_begin w argv with
  | .stop outcome trace => (outcome, trace)
  | .next s trace =>
    let r := main_edit w argv s
    (r.1, trace ++ r.2)

/-! ## Specification-side definitions -/

/-- The groups of the command line as the specification describes them: the
metadata operations of the leading well-formed groups `--update key value` and
`--delete key`, in order, and whether the whole list was consumed that way. -/
def parse_groups : List CStr → List Event × Bool
  | [] => ([], true)
  | arg :: rest =>
    if arg = str_update then
      match rest with
      | key :: value :: rest2 =>
        let p := parse_groups rest2
        (Event.metadata_set key (some value) :: p.1, p.2)
      | _ => ([], false)
    else if arg = str_delete then
      match rest with
      | key :: rest1 =>
        let p := parse_groups rest1
        (Event.metadata_set key none :: p.1, p.2)
      | [] => ([], false)
    else ([], false)

/-- Where `tempfileify` inserts into the string `s`: after the last `/`, at
the start when `s` has none. -/
def insert_pos (s : CStr) : Nat :=
  match strrchr s 47 with
  | some k => k + 1
  | none => 0

/-- The block `temp_filename` of `main` after `tempfileify`, for the file name
`filename`, the initial content `content` of the allocated block and the value
`r` of `rand()`: the directory part, the ten inserted characters, the base name, and
then the bytes the allocated block held from offset `strlen(filename) + 10` on. -/
def temp_block (filename : CStr) (content : Nat → Nat) (r : Nat) : List Nat :=
  filename.take (insert_pos filename) ++ snprintf_tmp (r % 99999)
    ++ filename.drop (insert_pos filename)
    ++ ((List.range (filename.length + 32)).map content).drop (filename.length + 10)

/-- The checksum a session ends with, as the decode loop computes it from 0. -/
def session_digest (bufs : List GrooveBuffer) : Option Nat :=
  (scan_loop bufs 0 0).map Prod.snd

/-- The byte count after the decode loop has added the sizes of `bufs` to `byte_count`. -/
def byte_count_after (bufs : List GrooveBuffer) (byte_count : Int) : Int :=
  bufs.foldl (fun a b => wrapInt (a + b.size)) byte_count

/-- The mathematical sum of the buffer sizes of a session. -/
def session_total (bufs : List GrooveBuffer) : Int := (bufs.map (fun b => b.size)).sum

/-- The decoded audio of a session: the bytes of its buffers, in order. -/
def session_audio (bufs : List GrooveBuffer) : List UChar :=
  (bufs.map (fun b => b.data.getD [])).flatten

/-- Modelled from the spec: the decoding library is not among the sources; the
spec describes a decoded buffer as a view over a contiguous byte run of decoded
samples. A buffer carries its data when `data[0]` is not null and holds `size`
bytes. -/
abbrev GrooveBuffer.carries_data (b : GrooveBuffer) : Prop :=
  b.data.map (fun d => (d.length : Int)) = some b.size

/-- A decoded buffer of 4096 zero bytes. -/
def page_buffer : GrooveBuffer := ⟨some (List.replicate 4096 0), 4096⟩

/-- A session of 524288 buffers of 4096 bytes: `2^31` bytes, about 6.8 hours of
mono 16-bit audio at 44100 Hz. -/
def long_session : List GrooveBuffer := List.replicate 524288 page_buffer

/-! ## Concrete runs -/

/-- The file name "a/b.mp3". -/
def demo_filename : CStr := [97, 47, 98, 46, 109, 112, 51]

/-- The temp file name "a/.tmp00042-b.mp3". -/
def demo_temp : CStr := [97, 47, 46, 116, 109, 112, 48, 48, 48, 52, 50, 45, 98, 46, 109, 112, 51]

/-- The command line `prog a/b.mp3 --update k v --delete x`. -/
def demo_argv : List CStr :=
  [[112, 114, 111, 103], demo_filename, str_update, [107], [118], str_delete, [120]]

/-- The command line `prog a/b.mp3 --update k v --delete`, whose last group lacks its key. -/
def bad_argv : List CStr :=
  [[112, 114, 111, 103], demo_filename, str_update, [107], [118], str_delete]

/-- 1024 bytes of decoded audio. -/
def demo_audio : List UChar := List.replicate 1024 7

/-- A run in which every call succeeds, `rand()` returns 42, the allocated block
is zero filled, and both scans deliver `demo_audio`, the second in two buffers. -/
def demo_world : World where
  rand := 42
  malloc := some (fun _ => 0)
  open_original := true
  attach_original := 0
  session_original := [⟨some demo_audio, 1024⟩]
  reopen_original := true
  save_as := 0
  open_temp := true
  attach_temp := 0
  session_temp := [⟨some (demo_audio.take 1000), 1000⟩, ⟨some (demo_audio.drop 1000), 24⟩]
  rename := 0

/-- As `demo_world`, but byte 5 of the audio decoded from the temp file is 8
instead of 7. -/
def corrupt_world : World :=
  { demo_world with session_temp := [⟨some (demo_audio.set 5 8), 1024⟩] }

/-- As `demo_world`, but the original decodes to 512 bytes only. -/
def short_world : World :=
  { demo_world with session_original := [⟨some (List.replicate 512 7), 512⟩] }

/-- As `demo_world`, but the original decodes to no buffer at all. -/
def silent_world : World :=
  { demo_world with session_original := [] }

/-- The checksum of `demo_audio` as `crc32` computes it from 0. -/
def demo_crc : Nat := demo_audio.foldl crc_step (0 ^^^ 0xffffffff) ^^^ 0xffffffff

/-- As `demo_world`, but the allocated block is filled with the byte 88. -/
def dirty_world : World :=
  { demo_world with malloc := some (fun _ => 88) }

/-- A block of 32 bytes holding "c.mp3", its terminator, and 26 bytes 88. -/
def dirty_block : List Nat := [99, 46, 109, 112, 51, 0] ++ List.replicate 26 88

/-- A block of 32 bytes holding "c.mp3" and 27 zero bytes. -/
def clean_block : List Nat := [99, 46, 109, 112, 51] ++ List.replicate 27 0

/-- Modelled from the spec: a buffer of the decoding library has a size that is
not negative and, when `data[0]` is not null, holds `size` bytes there. -/
abbrev GrooveBuffer.well_formed (b : GrooveBuffer) : Prop :=
  0 ≤ b.size ∧ (b.data = none ∨ b.carries_data)

/-! ## Lemmas on the checksum -/

set_option maxRecDepth 100000 in
theorem crc_table_length : crc_table.length = 256 := by decide

set_option maxRecDepth 100000 in
theorem crc_table_eq_steps :
    crc_table = (List.range 256).map (fun i => Nat.iterate crc32_bit_step 8 i) := by
  decide

theorem shiftRight_one_xor (x y : Nat) : (x ^^^ y) >>> 1 = (x >>> 1) ^^^ (y >>> 1) := by
  apply Nat.eq_of_testBit_eq
  intro i
  simp [Nat.testBit_xor, Nat.testBit_shiftRight]

theorem xor_mod_two (x y : Nat) : (x ^^^ y) % 2 = (x % 2 + y % 2) % 2 := by
  have h := Nat.testBit_xor x y 0
  simp only [Nat.testBit_zero] at h
  rcases Nat.mod_two_eq_zero_or_one x with hx | hx <;>
  rcases Nat.mod_two_eq_zero_or_one y with hy | hy <;>
  rcases Nat.mod_two_eq_zero_or_one (x ^^^ y) with hz | hz <;>
  simp [hx, hy, hz] at h ⊢

/-- The bit step is linear over xor. -/
theorem crc32_bit_step_xor (x y : Nat) :
    crc32_bit_step (x ^^^ y) = crc32_bit_step x ^^^ crc32_bit_step y := by
  unfold crc32_bit_step
  simp only [Nat.and_one_is_mod, shiftRight_one_xor, xor_mod_two]
  rcases Nat.mod_two_eq_zero_or_one x with hx | hx <;>
  rcases Nat.mod_two_eq_zero_or_one y with hy | hy <;>
  simp [hx, hy]
  · rw [Nat.xor_assoc]
  · rw [Nat.xor_assoc, Nat.xor_comm (y >>> 1), Nat.xor_assoc]
  · rw [Nat.xor_comm (y >>> 1) 3988292384, Nat.xor_assoc, Nat.xor_cancel_left]

theorem crc32_bit_step_iterate_xor (k x y : Nat) :
    Nat.iterate crc32_bit_step k (x ^^^ y)
      = Nat.iterate crc32_bit_step k x ^^^ Nat.iterate crc32_bit_step k y := by
  induction k generalizing x y with
  | zero => rfl
  | succ k ih => simp only [Function.iterate_succ, Function.comp_apply, crc32_bit_step_xor, ih]

theorem crc32_bit_step_double (m : Nat) : crc32_bit_step (2 * m) = m := by
  unfold crc32_bit_step
  have h1 : (2 * m) &&& 1 = 0 := by rw [Nat.and_one_is_mod]; omega
  have h2 : (2 * m) >>> 1 = m := by rw [Nat.shiftRight_eq_div_pow]; omega
  simp [h1, h2]

/-- On a register whose low `k` bits are clear, `k` bit steps are a shift. -/
theorem crc32_bit_step_iterate_shift (k q : Nat) :
    Nat.iterate crc32_bit_step k (2 ^ k * q) = q := by
  induction k generalizing q with
  | zero => simp
  | succ k ih =>
    rw [Function.iterate_succ, Function.comp_apply]
    have : 2 ^ (k + 1) * q = 2 * (2 ^ k * q) := by rw [pow_succ]; ring
    rw [this, crc32_bit_step_double, ih]

theorem split_low_byte (x : Nat) : x = (x % 256) ^^^ (2 ^ 8 * (x / 256)) := by
  have hlt : x % 256 < 2 ^ 8 := Nat.mod_lt _ (by norm_num)
  apply Nat.eq_of_testBit_eq
  intro j
  rw [Nat.testBit_xor]
  conv_lhs => rw [← Nat.div_add_mod x 256, show (256 : Nat) = 2 ^ 8 from rfl,
    Nat.testBit_mul_pow_two_add _ (by simpa using hlt)]
  rw [Nat.testBit_mul_pow_two]
  by_cases hj : j < 8
  · simp [hj, Nat.not_le.mpr hj]
  · have h8 : 8 ≤ j := Nat.le_of_not_lt hj
    have hz : (x % 256).testBit j = false :=
      Nat.testBit_lt_two_pow (lt_of_lt_of_le hlt (Nat.pow_le_pow_right (by norm_num) h8))
    simp [hj, h8, hz]

theorem crc_table_getD (i : Nat) (h : i < 256) :
    crc_table.getD i 0 = Nat.iterate crc32_bit_step 8 i := by
  rw [crc_table_eq_steps, List.getD_eq_getElem?_getD, List.getElem?_map,
    List.getElem?_range h]
  rfl

/-- The table-driven loop body equals eight bit steps on `crc ^ byte`. -/
theorem crc_step_eq_bitwise (c : Nat) (b : UChar) :
    crc_step c b = Nat.iterate crc32_bit_step 8 (c ^^^ b.val) := by
  have hb : b.val / 256 = 0 := Nat.div_eq_of_lt b.isLt
  have hmask : (c ^^^ b.val) &&& 0xff = (c ^^^ b.val) % 256 :=
    Nat.and_pow_two_sub_one_eq_mod _ 8
  have hhigh : (c ^^^ b.val) / 256 = c >>> 8 := by
    have := Nat.shiftRight_eq_div_pow (c ^^^ b.val) 8
    rw [show (2 : Nat) ^ 8 = 256 from rfl] at this
    rw [← this]
    apply Nat.eq_of_testBit_eq
    intro j
    have hz : b.val.testBit (8 + j) = false :=
      Nat.testBit_lt_two_pow (lt_of_lt_of_le b.isLt
        (by rw [show (256 : Nat) = 2 ^ 8 from rfl]; exact Nat.pow_le_pow_right (by norm_num) (by omega)))
    simp [Nat.testBit_shiftRight, Nat.testBit_xor, hz]
  unfold crc_step
  rw [hmask, crc_table_getD _ (Nat.mod_lt _ (by norm_num))]
  conv_rhs => rw [split_low_byte (c ^^^ b.val), crc32_bit_step_iterate_xor,
    crc32_bit_step_iterate_shift, hhigh]

theorem crc_loop_exact (bs : List UChar) (c : Nat) :
    crc_loop c bs (bs.length : Int) = some (bs.foldl crc_step c) := by
  induction bs generalizing c with
  | nil => simp [crc_loop]
  | cons b rest ih =>
    have hne : ((rest.length : Int) + 1 = 0) = False := by
      apply eq_false; omega
    simp only [crc_loop, List.length_cons, Nat.cast_add, Nat.cast_one, hne, if_false,
      add_sub_cancel_right, List.foldl_cons]
    exact ih _

theorem crc32_exact (c : Nat) (bs : List UChar) :
    crc32 c (some bs) (bs.length : Int)
      = some (bs.foldl crc_step (c ^^^ 0xffffffff) ^^^ 0xffffffff) := by
  simp [crc32, crc_loop_exact]

theorem foldl_crc_step_eq_bitwise (bs : List UChar) (c : Nat) :
    bs.foldl crc_step c
      = bs.foldl (fun c b => Nat.iterate crc32_bit_step 8 (c ^^^ b.val)) c := by
  congr 1
  funext c b
  exact crc_step_eq_bitwise c b

/-- Feeding the result of `crc32` back in continues the same register. -/
theorem crc32_append (c : Nat) (a b : List UChar) :
    (crc32 c (some a) (a.length : Int)).bind (fun c1 => crc32 c1 (some b) (b.length : Int))
      = crc32 c (some (a ++ b)) ((a ++ b).length : Int) := by
  rw [crc32_exact, crc32_exact, Option.bind, crc32_exact, Nat.xor_cancel_right,
    List.foldl_append]

theorem crc32_bit_step_lt (c : Nat) (h : c < 2 ^ 32) : crc32_bit_step c < 2 ^ 32 := by
  have h1 : c >>> 1 < 2 ^ 32 := by rw [Nat.shiftRight_eq_div_pow]; omega
  unfold crc32_bit_step
  split
  · exact Nat.xor_lt_two_pow h1 (by norm_num)
  · exact h1

theorem crc32_bit_step_testBit31 (c : Nat) (h : c < 2 ^ 32) :
    (crc32_bit_step c).testBit 31 = decide (c % 2 = 1) := by
  have h1 : (c >>> 1).testBit 31 = false := by
    rw [Nat.testBit_shiftRight]
    exact Nat.testBit_lt_two_pow h
  have hP : Nat.testBit 0xEDB88320 31 = true := by decide
  unfold crc32_bit_step
  rw [Nat.and_one_is_mod]
  split
  · rename_i hc
    rw [Nat.testBit_xor, h1, hP]; simp [hc]
  · rename_i hc
    rw [h1]; simp [hc]

/-- The bit step loses no information on 32-bit registers. -/
theorem crc32_bit_step_inj (a b : Nat) (ha : a < 2 ^ 32) (hb : b < 2 ^ 32)
    (h : crc32_bit_step a = crc32_bit_step b) : a = b := by
  have hbit : decide (a % 2 = 1) = decide (b % 2 = 1) := by
    rw [← crc32_bit_step_testBit31 a ha, ← crc32_bit_step_testBit31 b hb, h]
  have hpar : a % 2 = b % 2 := by
    rcases Nat.mod_two_eq_zero_or_one a with h1 | h1 <;>
    rcases Nat.mod_two_eq_zero_or_one b with h2 | h2 <;>
    simp [h1, h2] at hbit ⊢
  have hshift : a >>> 1 = b >>> 1 := by
    unfold crc32_bit_step at h
    rw [Nat.and_one_is_mod, Nat.and_one_is_mod, hpar] at h
    split at h
    · exact Nat.xor_left_inj.mp h
    · exact h
  rw [Nat.shiftRight_eq_div_pow, Nat.shiftRight_eq_div_pow] at hshift
  omega

theorem crc32_bit_step_iterate_lt (k c : Nat) (h : c < 2 ^ 32) :
    Nat.iterate crc32_bit_step k c < 2 ^ 32 := by
  induction k generalizing c with
  | zero => exact h
  | succ k ih =>
    rw [Function.iterate_succ, Function.comp_apply]
    exact ih _ (crc32_bit_step_lt c h)

theorem crc32_bit_step_iterate_inj (k a b : Nat) (ha : a < 2 ^ 32) (hb : b < 2 ^ 32)
    (h : Nat.iterate crc32_bit_step k a = Nat.iterate crc32_bit_step k b) : a = b := by
  induction k generalizing a b with
  | zero => exact h
  | succ k ih =>
    simp only [Function.iterate_succ, Function.comp_apply] at h
    exact crc32_bit_step_inj a b ha hb
      (ih _ _ (crc32_bit_step_lt a ha) (crc32_bit_step_lt b hb) h)

theorem uchar_lt (b : UChar) : b.val < 2 ^ 32 := lt_trans b.isLt (by norm_num)

theorem crc_step_lt (c : Nat) (b : UChar) (h : c < 2 ^ 32) : crc_step c b < 2 ^ 32 := by
  rw [crc_step_eq_bitwise]
  exact crc32_bit_step_iterate_lt 8 _ (Nat.xor_lt_two_pow h (uchar_lt b))

/-- Two distinct registers stay distinct after the same byte. -/
theorem crc_step_ne_of_ne (c d : Nat) (b : UChar) (hc : c < 2 ^ 32) (hd : d < 2 ^ 32)
    (h : c ≠ d) : crc_step c b ≠ crc_step d b := by
  intro heq
  rw [crc_step_eq_bitwise, crc_step_eq_bitwise] at heq
  exact h (Nat.xor_left_inj.mp (crc32_bit_step_iterate_inj 8 _ _
    (Nat.xor_lt_two_pow hc (uchar_lt b)) (Nat.xor_lt_two_pow hd (uchar_lt b)) heq))

/-- Two distinct bytes lead one register to distinct registers. -/
theorem crc_step_ne_of_byte_ne (c : Nat) (x y : UChar) (hc : c < 2 ^ 32) (h : x ≠ y) :
    crc_step c x ≠ crc_step c y := by
  intro heq
  rw [crc_step_eq_bitwise, crc_step_eq_bitwise] at heq
  have := Nat.xor_right_inj.mp (crc32_bit_step_iterate_inj 8 _ _
    (Nat.xor_lt_two_pow hc (uchar_lt x)) (Nat.xor_lt_two_pow hc (uchar_lt y)) heq)
  exact h (Fin.ext this)

theorem foldl_crc_step_lt (bs : List UChar) (c : Nat) (h : c < 2 ^ 32) :
    bs.foldl crc_step c < 2 ^ 32 := by
  induction bs generalizing c with
  | nil => exact h
  | cons b rest ih => exact ih _ (crc_step_lt c b h)

theorem foldl_crc_step_ne (bs : List UChar) (c d : Nat) (hc : c < 2 ^ 32) (hd : d < 2 ^ 32)
    (h : c ≠ d) : bs.foldl crc_step c ≠ bs.foldl crc_step d := by
  induction bs generalizing c d with
  | nil => exact h
  | cons b rest ih =>
    exact ih _ _ (crc_step_lt c b hc) (crc_step_lt d b hd) (crc_step_ne_of_ne c d b hc hd h)

/-- Replacing one byte of the input changes the final register. -/
theorem foldl_crc_step_set_ne (s : List UChar) (i : Nat) (v : UChar) (c : Nat)
    (hc : c < 2 ^ 32) (hi : i < s.length) (hv : v ≠ s[i]) :
    (s.set i v).foldl crc_step c ≠ s.foldl crc_step c := by
  induction s generalizing i c with
  | nil => simp at hi
  | cons x rest ih =>
    cases i with
    | zero =>
      simp only [List.set_cons_zero, List.foldl_cons]
      simp only [List.getElem_cons_zero] at hv
      exact foldl_crc_step_ne rest _ _ (crc_step_lt c v hc) (crc_step_lt c x hc)
        (crc_step_ne_of_byte_ne c v x hc hv)
    | succ j =>
      simp only [List.set_cons_succ, List.foldl_cons]
      simp only [List.getElem_cons_succ] at hv
      exact ih j (crc_step c x) (crc_step_lt c x hc) (by simpa using hi) hv

/-! ## Lemmas on the temp path generator -/

theorem strlen_spec (m : List Nat) (n : Nat) (h : strlen m = some n) :
    n < m.length ∧ m.drop n = 0 :: m.drop (n + 1) ∧ ∀ x ∈ m.take n, x ≠ 0 := by
  induction m generalizing n with
  | nil => simp [strlen] at h
  | cons c rest ih =>
    unfold strlen at h
    by_cases hc : c = 0
    · simp only [hc, if_true, Option.some.injEq] at h
      subst h
      simp [hc]
    · simp only [hc, if_false, Option.map_eq_some'] at h
      obtain ⟨k, hk, rfl⟩ := h
      obtain ⟨h1, h2, h3⟩ := ih k hk
      refine ⟨by simpa using h1, by simpa using h2, ?_⟩
      intro x hx
      simp only [List.take_succ_cons, List.mem_cons] at hx
      rcases hx with rfl | hx
      · exact hc
      · exact h3 x hx

theorem strlen_append_nul (a rest : List Nat) (h : ∀ x ∈ a, x ≠ 0) :
    strlen (a ++ 0 :: rest) = some a.length := by
  induction a with
  | nil => simp [strlen]
  | cons c t ih =>
    have hc : c ≠ 0 := h c (List.mem_cons_self _ _)
    have ht : ∀ x ∈ t, x ≠ 0 := fun x hx => h x (List.mem_cons_of_mem _ hx)
    simp [strlen, hc, ih ht]

theorem strlen_ge_of_nonzero_head (a rest : List Nat) (n : Nat) (h : ∀ x ∈ a, x ≠ 0)
    (hn : strlen (a ++ rest) = some n) : a.length ≤ n := by
  induction a generalizing n with
  | nil => simp
  | cons c t ih =>
    have hc : c ≠ 0 := h c (List.mem_cons_self _ _)
    have ht : ∀ x ∈ t, x ≠ 0 := fun x hx => h x (List.mem_cons_of_mem _ hx)
    simp only [List.cons_append, strlen, hc, if_false, Option.map_eq_some'] at hn
    obtain ⟨k, hk, rfl⟩ := hn
    have := ih k ht hk
    simp only [List.length_cons]
    omega

theorem strrchr_lt (s : List Nat) (c k : Nat) (h : strrchr s c = some k) : k < s.length := by
  induction s generalizing k with
  | nil => simp [strrchr] at h
  | cons x xs ih =>
    unfold strrchr at h
    cases hr : strrchr xs c with
    | some j =>
      simp only [hr, Option.some.injEq] at h
      have := ih j hr
      simp only [List.length_cons]
      omega
    | none =>
      simp only [hr] at h
      split at h
      · simp only [Option.some.injEq] at h
        simp only [List.length_cons]
        omega
      · simp at h

theorem insert_pos_le (s : CStr) : insert_pos s ≤ s.length := by
  unfold insert_pos
  split
  · rename_i k hk
    have := strrchr_lt s 47 k hk
    omega
  · omega

theorem snprintf_tmp_length (n : Nat) : (snprintf_tmp n).length = 10 := rfl

theorem snprintf_tmp_ne_zero (n : Nat) : ∀ x ∈ snprintf_tmp n, x ≠ 0 := by
  intro x hx
  simp only [snprintf_tmp, List.mem_cons, List.mem_singleton, List.not_mem_nil, or_false] at hx
  omega

/-- The block after the two stores of `tempfileify`. -/
theorem tempfileify_stores (str : List Nat) (len pos : Nat) (pre : CStr)
    (hpos : pos ≤ len) (hcap : len + 10 ≤ str.length) (hpre : pre.length = 10) :
    ∃ moved, memmove str (pos + 10) pos (len - pos) = some moved ∧
      strncpy moved pos pre 10
        = some (str.take pos ++ pre ++ (str.take len).drop pos ++ str.drop (len + 10)) := by
  have hB : ((str.drop pos).take (len - pos)).length = len - pos := by
    rw [List.length_take, List.length_drop]; omega
  have hBeq : (str.drop pos).take (len - pos) = (str.take len).drop pos := by
    rw [List.drop_take]
  refine ⟨str.take (pos + 10) ++ (str.take len).drop pos ++ str.drop (len + 10), ?_, ?_⟩
  · unfold memmove write_at
    have e : pos + 10 + (len - pos) = len + 10 := by omega
    rw [if_pos (by omega), if_pos (by rw [hB]; omega), hB, hBeq, e]
  · unfold strncpy write_at
    have hsrc : pre.take 10 ++ List.replicate (10 - pre.length) 0 = pre := by
      rw [hpre, ← hpre, List.take_length]; simp
    have hlen1 : (str.take (pos + 10)).length = pos + 10 := by
      rw [List.length_take]; omega
    rw [hsrc, hpre]
    rw [if_pos (by
      simp only [List.length_append, hlen1, List.length_drop, List.length_take]
      omega)]
    congr 1
    rw [List.append_assoc (str.take (pos + 10)), List.take_append_of_le_length (by omega),
      List.take_take, Nat.min_eq_left (by omega),
      List.drop_append_of_le_length (by omega), List.drop_of_length_le (by omega),
      List.nil_append]
    simp only [List.append_assoc]

/-- When `tempfileify` returns 0, the block holds the characters before the
insertion point, the ten inserted characters, the rest of the old string, and
after them what the block held there before: no terminator is stored. -/
theorem tempfileify_shape (str : List Nat) (max_len r : Nat) (t : TempfileifyResult)
    (h : tempfileify str max_len r = some t) (hret : t.ret = 0) :
    ∃ len, strlen str = some len ∧ len + 10 ≤ str.length ∧
      t.mem = str.take (insert_pos (str.take len)) ++ snprintf_tmp (r % 99999)
        ++ (str.take len).drop (insert_pos (str.take len)) ++ str.drop (len + 10) ∧
      t.writes = [(insert_pos (str.take len) + 10, len - insert_pos (str.take len)),
        (insert_pos (str.take len), 10)] := by
  unfold tempfileify at h
  cases hl : strlen str with
  | none => simp [hl] at h
  | some len =>
    simp only [hl] at h
    have hlt := (strlen_spec str len hl).1
    have hpos : insert_pos (str.take len) ≤ len := by
      have := insert_pos_le (str.take len)
      rw [List.length_take] at this
      omega
    split at h
    · simp only [Option.some.injEq] at h
      subst h
      simp at hret
    · change (match memmove str (insert_pos (str.take len) + 10) (insert_pos (str.take len))
          (len - insert_pos (str.take len)) with
        | none => none
        | some moved =>
          match strncpy moved (insert_pos (str.take len)) (snprintf_tmp (r % 99999)) 10 with
          | none => none
          | some result => some ⟨0, result,
              [(insert_pos (str.take len) + 10, len - insert_pos (str.take len)),
               (insert_pos (str.take len), 10)]⟩) = some t at h
      have hcap : len + 10 ≤ str.length := by
        by_contra hc
        have : memmove str (insert_pos (str.take len) + 10) (insert_pos (str.take len))
            (len - insert_pos (str.take len)) = none := by
          unfold memmove write_at
          split
          · rw [if_neg]
            rw [List.length_take, List.length_drop]
            omega
          · rfl
        rw [this] at h
        simp at h
      obtain ⟨moved, hm, hs⟩ := tempfileify_stores str len (insert_pos (str.take len))
        (snprintf_tmp (r % 99999)) hpos hcap rfl
      rw [hm] at h
      simp only [hs, Option.some.injEq] at h
      subst h
      exact ⟨len, rfl, hcap, rfl, rfl⟩

theorem tempfileify_too_long (str : List Nat) (len max_len r : Nat)
    (hlen : strlen str = some len) (hobj : str.length < 2 ^ 63) (h : max_len < len + 10) :
    tempfileify str max_len r = some ⟨-1, str, []⟩ := by
  have hlt := (strlen_spec str len hlen).1
  have hmod : (len + 10) % 2 ^ 64 = len + 10 := Nat.mod_eq_of_lt (by omega)
  unfold tempfileify
  simp only [hlen, hmod]
  rw [if_pos h]

theorem tempfileify_fits (str : List Nat) (len max_len r : Nat)
    (hlen : strlen str = some len) (hobj : str.length < 2 ^ 63) (h : len + 10 ≤ max_len)
    (hcap : max_len ≤ str.length) :
    tempfileify str max_len r = some ⟨0,
      str.take (insert_pos (str.take len)) ++ snprintf_tmp (r % 99999)
        ++ (str.take len).drop (insert_pos (str.take len)) ++ str.drop (len + 10),
      [(insert_pos (str.take len) + 10, len - insert_pos (str.take len)),
        (insert_pos (str.take len), 10)]⟩ := by
  have hlt := (strlen_spec str len hlen).1
  have hmod : (len + 10) % 2 ^ 64 = len + 10 := Nat.mod_eq_of_lt (by omega)
  have hpos : insert_pos (str.take len) ≤ len := by
    have := insert_pos_le (str.take len)
    rw [List.length_take] at this
    omega
  obtain ⟨moved, hm, hs⟩ := tempfileify_stores str len (insert_pos (str.take len))
    (snprintf_tmp (r % 99999)) hpos (by omega) rfl
  unfold tempfileify
  simp only [hlen, hmod]
  rw [if_neg (by omega)]
  change (match memmove str (insert_pos (str.take len) + 10) (insert_pos (str.take len))
      (len - insert_pos (str.take len)) with
    | none => none
    | some moved =>
      match strncpy moved (insert_pos (str.take len)) (snprintf_tmp (r % 99999)) 10 with
      | none => none
      | some result => some (TempfileifyResult.mk 0 result
          [(insert_pos (str.take len) + 10, len - insert_pos (str.take len)),
           (insert_pos (str.take len), 10)])) = _
  rw [hm]
  simp only [hs]

theorem tempfileify_ret (str : List Nat) (len max_len r : Nat) (t : TempfileifyResult)
    (hlen : strlen str = some len) (hobj : str.length < 2 ^ 63)
    (h : tempfileify str max_len r = some t) :
    (max_len < len + 10 ∧ t = ⟨-1, str, []⟩) ∨ (len + 10 ≤ max_len ∧ t.ret = 0) := by
  by_cases hb : max_len < len + 10
  · left
    rw [tempfileify_too_long str len max_len r hlen hobj hb] at h
    exact ⟨hb, (Option.some.inj h).symm⟩
  · right
    refine ⟨by omega, ?_⟩
    have hlt := (strlen_spec str len hlen).1
    have hmod : (len + 10) % 2 ^ 64 = len + 10 := Nat.mod_eq_of_lt (by omega)
    unfold tempfileify at h
    simp only [hlen, hmod] at h
    rw [if_neg (by omega)] at h
    split at h
    · simp at h
    · split at h
      · simp at h
      · simp only [Option.some.injEq] at h
        subst h
        rfl

/-- The string left by `tempfileify` in the block prepared by `main` is never
the file name it was made from. -/
theorem temp_path_ne (block : List Nat) (filename : CStr) (temp0 : List Nat)
    (max_len r n : Nat) (t : TempfileifyResult)
    (hw : write_at block 0 (filename ++ [0]) = some temp0)
    (ht : tempfileify temp0 max_len r = some t) (hret : t.ret = 0)
    (hn : strlen t.mem = some n) : t.mem.take n ≠ filename := by
  have htemp0 : temp0 = filename ++ 0 :: block.drop (filename.length + 1) := by
    unfold write_at at hw
    split at hw
    · simp only [Option.some.injEq] at hw
      rw [← hw]
      simp
    · simp at hw
  obtain ⟨len, hlen, hcap, hmem, -⟩ := tempfileify_shape temp0 max_len r t ht hret
  obtain ⟨hlt, -, hnz⟩ := strlen_spec temp0 len hlen
  have hpos : insert_pos (temp0.take len) ≤ len := by
    have := insert_pos_le (temp0.take len)
    rw [List.length_take] at this
    omega
  have hpre : ∀ x ∈ temp0.take (insert_pos (temp0.take len)) ++ snprintf_tmp (r % 99999)
      ++ (temp0.take len).drop (insert_pos (temp0.take len)), x ≠ 0 := by
    intro x hx
    simp only [List.mem_append] at hx
    rcases hx with (hx | hx) | hx
    · apply hnz x
      have : temp0.take (insert_pos (temp0.take len))
          = (temp0.take len).take (insert_pos (temp0.take len)) := by
        rw [List.take_take, Nat.min_eq_left hpos]
      rw [this] at hx
      exact List.mem_of_mem_take hx
    · exact snprintf_tmp_ne_zero _ x hx
    · exact hnz x (List.mem_of_mem_drop hx)
  have hprelen : (temp0.take (insert_pos (temp0.take len)) ++ snprintf_tmp (r % 99999)
      ++ (temp0.take len).drop (insert_pos (temp0.take len))).length = len + 10 := by
    simp only [List.length_append, List.length_take, List.length_drop, snprintf_tmp_length]
    omega
  rw [hmem] at hn
  have hge := strlen_ge_of_nonzero_head _ _ n hpre hn
  rw [hprelen] at hge
  rw [← hmem] at hn
  obtain ⟨hnlt, -, hpath⟩ := strlen_spec t.mem n hn
  intro heq
  have hfn : ∀ x ∈ filename, x ≠ 0 := by rw [← heq]; exact hpath
  have hlen2 : strlen temp0 = some filename.length := by
    rw [htemp0]; exact strlen_append_nul _ _ hfn
  rw [hlen] at hlen2
  have hl : len = filename.length := Option.some.inj hlen2
  have : (t.mem.take n).length = n := by rw [List.length_take]; omega
  rw [heq] at this
  omega

/-! ## Lemmas on the decode loop -/

theorem wrapInt_of_range (x : Int) (h1 : -2 ^ 31 ≤ x) (h2 : x < 2 ^ 31) : wrapInt x = x := by
  unfold wrapInt
  norm_num at h1 h2 ⊢
  omega

theorem carries_data_iff (b : GrooveBuffer) :
    b.carries_data ↔ ∃ d, b.data = some d ∧ b.size = (d.length : Int) := by
  unfold GrooveBuffer.carries_data
  cases b.data with
  | none => simp
  | some d => simp [eq_comm]

theorem scan_loop_fst (bufs : List GrooveBuffer) (bc : Int) (crc : Nat) (r : Int × Nat)
    (h : scan_loop bufs bc crc = some r) : r.1 = byte_count_after bufs bc := by
  induction bufs generalizing bc crc with
  | nil =>
    simp only [scan_loop, Option.some.injEq] at h
    subst h
    rfl
  | cons b rest ih =>
    unfold scan_loop at h
    split at h
    · simp at h
    · exact ih _ _ h

/-- On buffers that carry their data the decode loop is defined, and the
checksum it returns is the table-driven register run over the whole audio. -/
theorem scan_loop_carries (bufs : List GrooveBuffer) (bc : Int) (crc : Nat)
    (h : ∀ b ∈ bufs, b.carries_data) :
    scan_loop bufs bc crc = some (byte_count_after bufs bc,
      (session_audio bufs).foldl crc_step (crc ^^^ 0xffffffff) ^^^ 0xffffffff) := by
  induction bufs generalizing bc crc with
  | nil => simp [scan_loop, byte_count_after, session_audio, Nat.xor_cancel_right]
  | cons b rest ih =>
    obtain ⟨d, hd, hs⟩ := (carries_data_iff b).mp (h b (List.mem_cons_self _ _))
    have hrest : ∀ b ∈ rest, b.carries_data := fun x hx => h x (List.mem_cons_of_mem _ hx)
    unfold scan_loop
    rw [hd, hs, crc32_exact]
    simp only []
    rw [ih _ _ hrest, Nat.xor_cancel_right]
    simp [byte_count_after, session_audio, hd, hs, List.foldl_append]

theorem scan_loop_defined (bufs : List GrooveBuffer) (bc : Int) (crc : Nat)
    (h : ∀ b ∈ bufs, b.well_formed) :
    ∃ crc1, scan_loop bufs bc crc = some (byte_count_after bufs bc, crc1) := by
  induction bufs generalizing bc crc with
  | nil => exact ⟨crc, rfl⟩
  | cons b rest ih =>
    have hrest : ∀ b ∈ rest, b.well_formed := fun x hx => h x (List.mem_cons_of_mem _ hx)
    rcases (h b (List.mem_cons_self _ _)).2 with hn | hc
    · obtain ⟨c1, hc1⟩ := ih (wrapInt (bc + b.size)) 0 hrest
      refine ⟨c1, ?_⟩
      unfold scan_loop
      rw [hn]
      simp only [crc32]
      rw [hc1]
      rfl
    · obtain ⟨d, hd, hs⟩ := (carries_data_iff b).mp hc
      obtain ⟨c1, hc1⟩ := ih (wrapInt (bc + b.size))
        (d.foldl crc_step (crc ^^^ 0xffffffff) ^^^ 0xffffffff) hrest
      refine ⟨c1, ?_⟩
      unfold scan_loop
      rw [hd, hs, crc32_exact]
      simp only []
      rw [← hs, hc1]
      rfl

theorem session_total_nonneg (bufs : List GrooveBuffer) (h : ∀ b ∈ bufs, 0 ≤ b.size) :
    0 ≤ session_total bufs := by
  induction bufs with
  | nil => simp [session_total]
  | cons b rest ih =>
    have h1 := h b (List.mem_cons_self _ _)
    have h2 := ih (fun x hx => h x (List.mem_cons_of_mem _ hx))
    simp only [session_total, List.map_cons, List.sum_cons] at h2 ⊢
    omega

/-- While the running total stays within `int`, the loop adds exactly. -/
theorem byte_count_after_exact (bufs : List GrooveBuffer) (bc : Int)
    (hsize : ∀ b ∈ bufs, 0 ≤ b.size) (hbc : 0 ≤ bc)
    (hsum : bc + session_total bufs < 2 ^ 31) :
    byte_count_after bufs bc = bc + session_total bufs := by
  induction bufs generalizing bc with
  | nil => simp [byte_count_after, session_total]
  | cons b rest ih =>
    have h1 := hsize b (List.mem_cons_self _ _)
    have hrest : ∀ x ∈ rest, 0 ≤ x.size := fun x hx => hsize x (List.mem_cons_of_mem _ hx)
    have h2 := session_total_nonneg rest hrest
    have htot : session_total (b :: rest) = b.size + session_total rest := by
      simp [session_total]
    rw [htot] at hsum ⊢
    have hw : wrapInt (bc + b.size) = bc + b.size :=
      wrapInt_of_range _ (by norm_num; omega) (by omega)
    have := ih (bc + b.size) hrest (by omega) (by omega)
    simp only [byte_count_after, List.foldl_cons] at this ⊢
    rw [hw, this]
    omega

theorem session_total_eq_length (bufs : List GrooveBuffer) (h : ∀ b ∈ bufs, b.carries_data) :
    session_total bufs = ((session_audio bufs).length : Int) := by
  induction bufs with
  | nil => simp [session_total, session_audio]
  | cons b rest ih =>
    obtain ⟨d, hd, hs⟩ := (carries_data_iff b).mp (h b (List.mem_cons_self _ _))
    have := ih (fun x hx => h x (List.mem_cons_of_mem _ hx))
    simp only [session_total, session_audio, List.map_cons, List.sum_cons, List.flatten_cons,
      List.length_append, Nat.cast_add, hd, Option.getD_some] at this ⊢
    rw [this, hs]

theorem scan_loop_append (a b : List GrooveBuffer) (bc : Int) (crc : Nat) :
    scan_loop (a ++ b) bc crc = (scan_loop a bc crc).bind (fun r => scan_loop b r.1 r.2) := by
  induction a generalizing bc crc with
  | nil => rfl
  | cons x rest ih =>
    simp only [List.cons_append, scan_loop]
    cases crc32 crc x.data x.size with
    | none => rfl
    | some c => exact ih _ _

/-- The checksum of the decode loop does not depend on the byte count. -/
theorem scan_loop_snd (bufs : List GrooveBuffer) (bc1 bc2 : Int) (crc : Nat) :
    (scan_loop bufs bc1 crc).map Prod.snd = (scan_loop bufs bc2 crc).map Prod.snd := by
  induction bufs generalizing bc1 bc2 crc with
  | nil => rfl
  | cons x rest ih =>
    simp only [scan_loop]
    cases crc32 crc x.data x.size with
    | none => rfl
    | some c => exact ih _ _ _

theorem session_total_replicate (n : Nat) (b : GrooveBuffer) :
    session_total (List.replicate n b) = n * b.size := by
  induction n with
  | zero => simp [session_total]
  | succ n ih =>
    simp only [session_total, List.replicate_succ, List.map_cons, List.sum_cons] at ih ⊢
    rw [ih]
    push_cast
    ring

theorem page_buffer_well_formed : page_buffer.well_formed := by
  refine ⟨by decide, Or.inr ?_⟩
  show some (((List.replicate 4096 (0 : UChar)).length : Nat) : Int) = some 4096
  rw [List.length_replicate]
  rfl

theorem long_session_well_formed : ∀ b ∈ long_session, b.well_formed := by
  intro b hb
  rw [List.eq_of_mem_replicate hb]
  exact page_buffer_well_formed

theorem byte_count_after_long_session :
    byte_count_after long_session 0 = -2147483648 := by
  have hsplit : long_session = List.replicate 524287 page_buffer ++ [page_buffer] :=
    List.replicate_succ' 524287 page_buffer
  have hwf : ∀ b ∈ List.replicate 524287 page_buffer, 0 ≤ b.size := by
    intro b hb
    rw [List.eq_of_mem_replicate hb]
    exact page_buffer_well_formed.1
  have htot : session_total (List.replicate 524287 page_buffer) = 2147479552 := by
    rw [session_total_replicate]
    show ((524287 : Nat) : Int) * 4096 = 2147479552
    norm_num
  have hexact := byte_count_after_exact (List.replicate 524287 page_buffer) 0 hwf
    (Int.le_refl 0) (by rw [htot]; norm_num)
  rw [htot] at hexact
  rw [hsplit]
  unfold byte_count_after at hexact ⊢
  rw [List.foldl_append, hexact]
  simp only [List.foldl_cons, List.foldl_nil, page_buffer, wrapInt]
  norm_num

/-! ## Lemmas on `main` -/

theorem parse_groups_update (key value : CStr) (rest : List CStr) :
    parse_groups (str_update :: key :: value :: rest)
      = (Event.metadata_set key (some value) :: (parse_groups rest).1, (parse_groups rest).2) := by
  simp [parse_groups]

theorem parse_groups_update_short (rest : List CStr) (h : rest.length < 2) :
    parse_groups (str_update :: rest) = ([], false) := by
  match rest, h with
  | [], _ => simp [parse_groups]
  | [_], _ => simp [parse_groups]

theorem parse_groups_delete (key : CStr) (rest : List CStr) :
    parse_groups (str_delete :: key :: rest)
      = (Event.metadata_set key none :: (parse_groups rest).1, (parse_groups rest).2) := by
  have hne : str_delete ≠ str_update := by decide
  cases rest <;> simp [parse_groups, hne]

theorem parse_groups_delete_short : parse_groups [str_delete] = ([], false) := by
  have hne : str_delete ≠ str_update := by decide
  simp [parse_groups, hne]

theorem parse_groups_other (arg : CStr) (rest : List CStr) (hu : arg ≠ str_update)
    (hd : arg ≠ str_delete) : parse_groups (arg :: rest) = ([], false) := by
  match rest with
  | [] => simp [parse_groups, hu, hd]
  | [_] => simp [parse_groups, hu, hd]
  | _ :: _ :: _ => simp [parse_groups, hu, hd]

/-- The option loop computes the groups of the specification. -/
theorem option_loop_eq_parse (argv : List CStr) (fuel i : Nat) (ops : List Event)
    (hfuel : argv.length ≤ i + fuel) :
    option_loop argv fuel i ops
      = if (parse_groups (argv.drop i)).2 then .done (ops ++ (parse_groups (argv.drop i)).1)
        else .usage (ops ++ (parse_groups (argv.drop i)).1) := by
  induction fuel generalizing i ops with
  | zero =>
    have hi : ¬ i < argv.length := by omega
    have hd : argv.drop i = [] := List.drop_of_length_le (by omega)
    simp [option_loop, hi, hd, parse_groups]
  | succ fuel ih =>
    unfold option_loop
    by_cases hi : i < argv.length
    · rw [if_pos hi, List.getElem?_eq_getElem hi]
      simp only []
      have hdrop : argv.drop i = argv[i] :: argv.drop (i + 1) := List.drop_eq_getElem_cons hi
      by_cases hu : argv[i] = str_update
      · rw [if_pos hu]
        by_cases h2 : i + 2 ≥ argv.length
        · rw [if_pos h2, hdrop, hu,
            parse_groups_update_short _ (by rw [List.length_drop]; omega)]
          simp
        · rw [if_neg h2]
          have h1 : i + 1 < argv.length := by omega
          have h2 : i + 2 < argv.length := by omega
          have hdrop1 : argv.drop (i + 1) = argv[i + 1] :: argv.drop (i + 2) :=
            List.drop_eq_getElem_cons h1
          have hdrop2 : argv.drop (i + 2) = argv[i + 2] :: argv.drop (i + 2 + 1) :=
            List.drop_eq_getElem_cons h2
          rw [List.getElem?_eq_getElem h1, List.getElem?_eq_getElem h2]
          simp only []
          rw [ih (i + 2 + 1) _ (by omega), hdrop, hdrop1, hdrop2, hu, parse_groups_update]
          simp only [List.append_assoc, List.singleton_append]
      · rw [if_neg hu]
        by_cases hdel : argv[i] = str_delete
        · rw [if_pos hdel]
          by_cases h1 : i + 1 ≥ argv.length
          · have hd : argv.drop (i + 1) = [] := List.drop_of_length_le (by omega)
            rw [if_pos h1, hdrop, hdel, hd, parse_groups_delete_short]
            simp
          · rw [if_neg h1]
            have h1 : i + 1 < argv.length := by omega
            have hdrop1 : argv.drop (i + 1) = argv[i + 1] :: argv.drop (i + 1 + 1) :=
              List.drop_eq_getElem_cons h1
            rw [List.getElem?_eq_getElem h1]
            simp only []
            rw [ih (i + 1 + 1) _ (by omega), hdrop, hdrop1, hdel, parse_groups_delete]
            simp only [List.append_assoc, List.singleton_append]
        · rw [if_neg hdel, hdrop, parse_groups_other _ _ hu hdel]
          simp
    · rw [if_neg hi]
      have hd : argv.drop i = [] := List.drop_of_length_le (by omega)
      simp [hd, parse_groups]

theorem parse_groups_metadata_bounded (n : Nat) (args : List CStr) (h : args.length ≤ n) :
    ∀ e ∈ (parse_groups args).1, ∃ key value, e = Event.metadata_set key value := by
  induction n generalizing args with
  | zero =>
    have : args = [] := List.length_eq_zero.mp (by omega)
    subst this
    simp [parse_groups]
  | succ n ih =>
    match args, h with
    | [], _ => simp [parse_groups]
    | arg :: rest, h =>
      simp only [List.length_cons] at h
      by_cases hu : arg = str_update
      · subst hu
        match rest, h with
        | [], _ => simp [parse_groups]
        | [_], _ => simp [parse_groups]
        | key :: value :: rest2, h =>
          simp only [List.length_cons] at h
          rw [parse_groups_update]
          intro e he
          simp only [List.mem_cons] at he
          rcases he with rfl | he
          · exact ⟨_, _, rfl⟩
          · exact ih rest2 (by omega) e he
      · by_cases hd : arg = str_delete
        · subst hd
          match rest, h with
          | [], _ => simp [parse_groups_delete_short]
          | key :: rest1, h =>
            simp only [List.length_cons] at h
            rw [parse_groups_delete]
            intro e he
            simp only [List.mem_cons] at he
            rcases he with rfl | he
            · exact ⟨_, _, rfl⟩
            · exact ih rest1 (by omega) e he
        · simp [parse_groups_other _ _ hu hd]

theorem parse_groups_metadata (args : List CStr) :
    ∀ e ∈ (parse_groups args).1, ∃ key value, e = Event.metadata_set key value :=
  parse_groups_metadata_bounded args.length args (Nat.le_refl _)

theorem main_temp_filename_stop (w : World) (filename : CStr) (o : Outcome)
    (tr : List Event) (h : main_temp_filename w filename = .stop o tr) : tr = [] := by
  unfold main_temp_filename at h
  cases hm : w.malloc with
  | none => simp only [hm, Phase.stop.injEq] at h; exact h.2.symm
  | some content =>
    simp only [hm] at h
    split at h
    · simp only [Phase.stop.injEq] at h; exact h.2.symm
    · split at h
      · simp only [Phase.stop.injEq] at h; exact h.2.symm
      · split at h
        · simp only [Phase.stop.injEq] at h; exact h.2.symm
        · simp at h

theorem main_temp_filename_next (w : World) (filename : CStr) (temp : List Nat)
    (tr : List Event) (h : main_temp_filename w filename = .next temp tr) :
    ∃ block max_len temp0 t, write_at block 0 (filename ++ [0]) = some temp0 ∧
      tempfileify temp0 max_len w.rand = some t ∧ t.ret = 0 ∧ temp = t.mem := by
  unfold main_temp_filename at h
  cases hm : w.malloc with
  | none => simp [hm] at h
  | some content =>
    simp only [hm] at h
    split at h
    · simp at h
    · rename_i temp0 hw
      split at h
      · simp at h
      · rename_i t ht
        split at h
        · simp at h
        · rename_i hret
          simp only [Phase.next.injEq] at h
          exact ⟨_, _, temp0, t, hw, ht, by simpa using hret, h.1.symm⟩

theorem main_scan_stop (w : World) (filename : CStr) (temp : List Nat) (o : Outcome)
    (tr : List Event) (h : main_scan w filename temp = .stop o tr) :
    ∀ e ∈ tr, e = Event.file_open filename := by
  unfold main_scan at h
  repeat' split at h
  all_goals first
    | (simp only [Phase.stop.injEq] at h
       obtain ⟨-, rfl⟩ := h
       simp)
    | simp at h

theorem main_scan_next (w : World) (filename : CStr) (temp : List Nat) (s : Scanned)
    (tr : List Event) (h : main_scan w filename temp = .next s tr) :
    tr = [.file_open filename, .file_open filename] ∧ s.filename = filename ∧
      s.temp_filename = temp ∧
      scan_loop w.session_original 0 0 = some (s.byte_count_begin, s.crc_begin) ∧
      1024 ≤ s.byte_count_begin := by
  unfold main_scan at h
  repeat' split at h
  all_goals try (simp at h; done)
  rename_i hopen hattach x bc crc hscan hreopen hsmall
  simp only [Phase.next.injEq] at h
  obtain ⟨rfl, rfl⟩ := h
  exact ⟨rfl, rfl, rfl, hscan, by simp only []; omega⟩

/-- A run that ends before the option loop has only opened files. -/
theorem main_begin_stop (w : World) (argv : List CStr) (o : Outcome) (tr : List Event)
    (h : main_begin w argv = .stop o tr) : ∀ e ∈ tr, ∃ p, e = Event.file_open p := by
  unfold main_begin at h
  split at h
  · simp only [Phase.stop.injEq] at h
    obtain ⟨-, rfl⟩ := h
    simp
  · split at h
    · simp only [Phase.stop.injEq] at h
      obtain ⟨-, rfl⟩ := h
      simp
    · rename_i filename hf
      split at h
      · rename_i o1 tr1 h1
        simp only [Phase.stop.injEq] at h
        obtain ⟨-, rfl⟩ := h
        rw [main_temp_filename_stop w filename o1 tr1 h1]
        simp
      · intro e he
        exact ⟨filename, main_scan_stop w filename _ o tr h e he⟩

/-- What is known once `main` has passed the plausibility guard. -/
theorem main_begin_next (w : World) (argv : List CStr) (s : Scanned) (tr : List Event)
    (h : main_begin w argv = .next s tr) :
    tr = [.file_open s.filename, .file_open s.filename] ∧ argv[1]? = some s.filename ∧
      scan_loop w.session_original 0 0 = some (s.byte_count_begin, s.crc_begin) ∧
      1024 ≤ s.byte_count_begin ∧
      ∃ block max_len temp0 t, write_at block 0 (s.filename ++ [0]) = some temp0 ∧
        tempfileify temp0 max_len w.rand = some t ∧ t.ret = 0 ∧ s.temp_filename = t.mem := by
  unfold main_begin at h
  split at h
  · simp at h
  · split at h
    · simp at h
    · rename_i filename hf
      split at h
      · simp at h
      · rename_i temp tr1 h1
        obtain ⟨h2, h3, h4, h5, h6⟩ := main_scan_next w filename temp s tr h
        subst h3
        refine ⟨h2, hf, h5, h6, ?_⟩
        rw [h4]
        exact main_temp_filename_next w s.filename temp tr1 h1

theorem main_verify_cases (w : World) (s : Scanned) (temp : CStr) (crc_end : Nat)
    (byte_count_end : Int) :
    (main_verify w s temp crc_end byte_count_end = (.aborted "checksum failed", []) ∧
      (s.crc_begin ≠ crc_end ∨ s.byte_count_begin ≠ byte_count_end)) ∨
    ((main_verify w s temp crc_end byte_count_end).2 = [.rename temp s.filename] ∧
      s.crc_begin = crc_end ∧ s.byte_count_begin = byte_count_end ∧
      ((main_verify w s temp crc_end byte_count_end).1 = .returned 0 ∨
        (main_verify w s temp crc_end byte_count_end).1 = .aborted "rename failed")) := by
  unfold main_verify
  by_cases h : s.crc_begin ≠ crc_end ∨ s.byte_count_begin ≠ byte_count_end
  · left
    rw [if_pos h]
    exact ⟨rfl, h⟩
  · right
    rw [if_neg h]
    have h1 : s.crc_begin = crc_end := by
      by_contra hc; exact h (Or.inl hc)
    have h2 : s.byte_count_begin = byte_count_end := by
      by_contra hc; exact h (Or.inr hc)
    by_cases hr : w.rename ≠ 0
    · rw [if_pos hr]; exact ⟨rfl, h1, h2, Or.inr rfl⟩
    · rw [if_neg hr]; exact ⟨rfl, h1, h2, Or.inl rfl⟩

/-- The calls made from line 210 on: nothing, or the save alone, or the save
and the reopening, or these followed by the rename, the last only when the save
succeeded and the second scan returned the fingerprint of the first. -/
theorem main_save_cases (w : World) (s : Scanned) :
    (main_save w s).2 = [] ∨
    ∃ n, strlen s.temp_filename = some n ∧
      ((main_save w s).2 = [.save_as (s.temp_filename.take n)] ∨
       (main_save w s).2
          = [.save_as (s.temp_filename.take n), .file_open (s.temp_filename.take n)] ∨
       ((main_save w s).2
          = [.save_as (s.temp_filename.take n), .file_open (s.temp_filename.take n),
             .rename (s.temp_filename.take n) s.filename] ∧
        0 ≤ w.save_as ∧
        scan_loop w.session_temp 0 0 = some (s.byte_count_begin, s.crc_begin))) := by
  unfold main_save
  cases hn : strlen s.temp_filename with
  | none => left; rfl
  | some n =>
    right
    refine ⟨n, rfl, ?_⟩
    simp only []
    by_cases h1 : w.save_as < 0
    · rw [if_pos h1]; left; rfl
    · rw [if_neg h1]
      by_cases h2 : w.open_temp = false
      · rw [if_pos h2]; right; left; rfl
      · rw [if_neg h2]
        by_cases h3 : w.attach_temp < 0
        · rw [if_pos h3]; right; left; rfl
        · rw [if_neg h3]
          cases hs : scan_loop w.session_temp 0 0 with
          | none => right; left; rfl
          | some r =>
            obtain ⟨byte_count_end, crc_end⟩ := r
            simp only []
            rcases main_verify_cases w s (s.temp_filename.take n) crc_end byte_count_end
              with ⟨hv, -⟩ | ⟨hv, hc, hb, -⟩
            · right; left
              rw [hv]; rfl
            · right; right
              rw [hv, hc, hb]
              exact ⟨rfl, by omega, rfl⟩

theorem main_edit_trace (w : World) (argv : List CStr) (s : Scanned) :
    (main_edit w argv s).2 = (parse_groups (argv.drop 2)).1 ∨
    ((parse_groups (argv.drop 2)).2 = true ∧
      (main_edit w argv s).2 = (parse_groups (argv.drop 2)).1 ++ (main_save w s).2) := by
  unfold main_edit
  rw [option_loop_eq_parse argv argv.length 2 [] (by omega)]
  by_cases hp : (parse_groups (argv.drop 2)).2 = true
  · rw [if_pos hp]
    right
    exact ⟨hp, by simp⟩
  · rw [if_neg hp]
    left
    simp

theorem main_of_stop (w : World) (argv : List CStr) (o : Outcome) (tr : List Event)
    (h : main_begin w argv = .stop o tr) : main w argv = (o, tr) := by
  unfold main; rw [h]

theorem main_of_next (w : World) (argv : List CStr) (s : Scanned) (tr : List Event)
    (h : main_begin w argv = .next s tr) :
    main w argv = ((main_edit w argv s).1, tr ++ (main_edit w argv s).2) := by
  unfold main; rw [h]

theorem parse_groups_no_save (args : List CStr) (p : CStr) :
    Event.save_as p ∉ (parse_groups args).1 := by
  intro hp
  obtain ⟨k, v, h⟩ := parse_groups_metadata args _ hp
  cases h

theorem parse_groups_no_rename (args : List CStr) (a b : CStr) :
    Event.rename a b ∉ (parse_groups args).1 := by
  intro hp
  obtain ⟨k, v, h⟩ := parse_groups_metadata args _ hp
  cases h

/-- With a NUL-free file name of sane length and a successful `malloc`, lines
135-142 leave `temp_block` in `temp_filename`. -/
theorem main_temp_filename_ok (w : World) (filename : CStr) (content : Nat → Nat)
    (hnul : ∀ x ∈ filename, x ≠ 0) (hlen : filename.length + 32 < 2 ^ 31)
    (hmalloc : w.malloc = some content) :
    main_temp_filename w filename = .next (temp_block filename content w.rand) [] := by
  have hsize : ((wrapInt ((filename.length : Int) + 32)) % 2 ^ 64).toNat
      = filename.length + 32 := by
    rw [wrapInt_of_range _ (by norm_num; omega) (by norm_num at hlen ⊢; omega)]
    norm_num
    omega
  have hblock : ((List.range (filename.length + 32)).map content).length
      = filename.length + 32 := by simp
  have hwrite : write_at ((List.range (filename.length + 32)).map content) 0 (filename ++ [0])
      = some (filename ++ 0 :: ((List.range (filename.length + 32)).map content).drop
          (filename.length + 1)) := by
    unfold write_at
    rw [if_pos (by rw [hblock]; simp)]
    simp
  have hstrlen := strlen_append_nul filename
    (((List.range (filename.length + 32)).map content).drop (filename.length + 1)) hnul
  have hstrcap : (filename ++ 0 :: ((List.range (filename.length + 32)).map content).drop
      (filename.length + 1)).length = filename.length + 32 := by
    simp only [List.length_append, List.length_cons, List.length_drop, hblock]
    omega
  have hfit := tempfileify_fits _ filename.length (filename.length + 32) w.rand hstrlen
    (by rw [hstrcap]; norm_num at hlen ⊢; omega) (by omega) (by rw [hstrcap])
  have htake : (filename ++ 0 :: ((List.range (filename.length + 32)).map content).drop
      (filename.length + 1)).take filename.length = filename := by
    rw [List.take_append_of_le_length (Nat.le_refl _), List.take_length]
  have hpos := insert_pos_le filename
  have hdrop : (filename ++ 0 :: ((List.range (filename.length + 32)).map content).drop
      (filename.length + 1)).drop (filename.length + 10)
      = ((List.range (filename.length + 32)).map content).drop (filename.length + 10) := by
    rw [show filename.length + 10 = filename.length + (9 + 1) from rfl,
      List.drop_append_eq_append_drop, List.drop_of_length_le (by omega), List.nil_append,
      Nat.add_sub_cancel_left, List.drop_succ_cons, List.drop_drop]
  rw [htake, List.take_append_of_le_length hpos, hdrop] at hfit
  unfold main_temp_filename
  simp only [hmalloc, hsize, hwrite, hfit]
  rfl

/-- A run whose calls succeed up to the first scan reaches the plausibility
guard, which alone decides how lines 124-181 end. -/
theorem main_begin_reaches_guard (w : World) (argv : List CStr) (filename : CStr)
    (content : Nat → Nat) (bc : Int) (crc : Nat)
    (hargv : argv[1]? = some filename) (hnul : ∀ x ∈ filename, x ≠ 0)
    (hlen : filename.length + 32 < 2 ^ 31) (hmalloc : w.malloc = some content)
    (hopen : w.open_original = true) (hattach : 0 ≤ w.attach_original)
    (hscan : scan_loop w.session_original 0 0 = some (bc, crc))
    (hreopen : w.reopen_original = true) :
    main_begin w argv =
      if bc < 1024 then
        .stop (.aborted "too small, something is probably wrong.")
          [.file_open filename, .file_open filename]
      else
        .next ⟨filename, temp_block filename content w.rand, crc, bc⟩
          [.file_open filename, .file_open filename] := by
  have hargc : ¬ argv.length < 2 := by
    intro hc
    rw [List.getElem?_eq_none (by omega)] at hargv
    cases hargv
  unfold main_begin
  rw [if_neg hargc]
  simp only [hargv, main_temp_filename_ok w filename content hnul hlen hmalloc]
  unfold main_scan
  rw [if_neg (by simp [hopen]), if_neg (by omega)]
  simp only [hscan]
  rw [if_neg (by simp [hreopen])]

theorem strlen_of_mem (m : List Nat) (h : 0 ∈ m) : ∃ n, strlen m = some n := by
  induction m with
  | nil => simp at h
  | cons c rest ih =>
    unfold strlen
    by_cases hc : c = 0
    · exact ⟨0, by rw [if_pos hc]⟩
    · rw [if_neg hc]
      have : 0 ∈ rest := by
        rcases List.mem_cons.mp h with h0 | h0
        · exact absurd h0.symm hc
        · exact h0
      obtain ⟨n, hn⟩ := ih this
      exact ⟨n + 1, by rw [hn]; rfl⟩

/-- How `main` goes on after the guard when the options are well formed, the
temp file name is terminated, and save, reopening, attach and the second scan
succeed: it reaches the comparison of line 246. -/
theorem main_edit_reaches_verify (w : World) (argv : List CStr) (s : Scanned) (n : Nat)
    (byte_count_end : Int) (crc_end : Nat)
    (hparse : (parse_groups (argv.drop 2)).2 = true)
    (hterm : strlen s.temp_filename = some n) (hsave : 0 ≤ w.save_as)
    (hopen : w.open_temp = true) (hattach : 0 ≤ w.attach_temp)
    (hscan : scan_loop w.session_temp 0 0 = some (byte_count_end, crc_end)) :
    main_edit w argv s =
      ((main_verify w s (s.temp_filename.take n) crc_end byte_count_end).1,
        (parse_groups (argv.drop 2)).1
          ++ ([.save_as (s.temp_filename.take n), .file_open (s.temp_filename.take n)]
            ++ (main_verify w s (s.temp_filename.take n) crc_end byte_count_end).2)) := by
  unfold main_edit
  rw [option_loop_eq_parse argv argv.length 2 [] (by omega), if_pos hparse]
  simp only [List.nil_append]
  unfold main_save
  simp only [hterm, hscan]
  rw [if_neg (by omega), if_neg (by simp [hopen]), if_neg (by omega)]

/-- How lines 183-254 can end: with `return 0` only after a `rename`, and
otherwise with one of seven other outcomes. -/
theorem main_edit_outcome (w : World) (argv : List CStr) (s : Scanned) :
    ((main_edit w argv s).1 = .returned 0 ∧
      ∃ src dst, Event.rename src dst ∈ (main_edit w argv s).2) ∨
    (main_edit w argv s).1 ∈ [Outcome.returned 1, Outcome.undefined,
      Outcome.aborted "error saving file", Outcome.aborted "error opening %s",
      Outcome.aborted "error attaching sink", Outcome.aborted "checksum failed",
      Outcome.aborted "rename failed"] := by
  unfold main_edit
  rw [option_loop_eq_parse argv argv.length 2 [] (by omega)]
  by_cases hp : (parse_groups (argv.drop 2)).2 = true
  · rw [if_pos hp]
    simp only []
    unfold main_save
    split
    · right; simp
    · simp only []
      split
      · right; simp
      · split
        · right; simp
        · split
          · right; simp
          · split
            · right; simp
            · simp only []
              unfold main_verify
              split
              · right; simp
              · split
                · right; simp
                · left
                  simp only [List.nil_append, List.mem_append, List.mem_cons,
                    List.not_mem_nil, or_false, true_and]
                  exact ⟨_, _, Or.inr (Or.inr rfl)⟩
  · rw [if_neg hp]
    right; simp

theorem main_temp_filename_outcome (w : World) (filename : CStr) (o : Outcome)
    (tr : List Event) (h : main_temp_filename w filename = .stop o tr) :
    o ∈ [Outcome.aborted "out of memory", Outcome.undefined,
      Outcome.aborted "temp filename too long"] := by
  unfold main_temp_filename at h
  cases hm : w.malloc with
  | none =>
    simp only [hm, Phase.stop.injEq] at h
    rw [← h.1]; simp
  | some content =>
    simp only [hm] at h
    split at h
    · simp only [Phase.stop.injEq] at h
      rw [← h.1]; simp
    · split at h
      · simp only [Phase.stop.injEq] at h
        rw [← h.1]; simp
      · split at h
        · simp only [Phase.stop.injEq] at h
          rw [← h.1]; simp
        · simp at h

theorem main_scan_outcome (w : World) (filename : CStr) (temp : List Nat) (o : Outcome)
    (tr : List Event) (h : main_scan w filename temp = .stop o tr) :
    (o = .aborted "too small, something is probably wrong." ∧
      ∃ bc crc, scan_loop w.session_original 0 0 = some (bc, crc) ∧ bc < 1024) ∨
    o ∈ [Outcome.aborted "error opening %s", Outcome.aborted "error attaching sink",
      Outcome.undefined] := by
  unfold main_scan at h
  split at h
  · simp only [Phase.stop.injEq] at h
    obtain ⟨rfl, -⟩ := h
    right; simp
  · split at h
    · simp only [Phase.stop.injEq] at h
      obtain ⟨rfl, -⟩ := h
      right; simp
    · split at h
      · simp only [Phase.stop.injEq] at h
        obtain ⟨rfl, -⟩ := h
        right; simp
      · rename_i bc crc hscan
        split at h
        · simp only [Phase.stop.injEq] at h
          obtain ⟨rfl, -⟩ := h
          right; simp
        · split at h
          · rename_i hsmall
            simp only [Phase.stop.injEq] at h
            obtain ⟨rfl, -⟩ := h
            left
            exact ⟨rfl, bc, crc, hscan, hsmall⟩
          · simp at h

theorem main_begin_outcome (w : World) (argv : List CStr) (o : Outcome) (tr : List Event)
    (h : main_begin w argv = .stop o tr) :
    (o = .aborted "too small, something is probably wrong." ∧
      ∃ bc crc, scan_loop w.session_original 0 0 = some (bc, crc) ∧ bc < 1024) ∨
    o ∈ [Outcome.returned 1, Outcome.undefined, Outcome.aborted "out of memory",
      Outcome.aborted "temp filename too long", Outcome.aborted "error opening %s",
      Outcome.aborted "error attaching sink"] := by
  unfold main_begin at h
  split at h
  · simp only [Phase.stop.injEq] at h
    obtain ⟨rfl, -⟩ := h
    right; simp
  · split at h
    · simp only [Phase.stop.injEq] at h
      obtain ⟨rfl, -⟩ := h
      right; simp
    · rename_i filename hf
      split at h
      · rename_i o1 tr1 h1
        simp only [Phase.stop.injEq] at h
        obtain ⟨rfl, -⟩ := h
        have := main_temp_filename_outcome w filename o1 tr1 h1
        right
        simp only [List.mem_cons, List.mem_singleton, List.not_mem_nil, or_false] at this ⊢
        tauto
      · rcases main_scan_outcome w filename _ o tr h with h1 | h1
        · exact Or.inl h1
        · right
          simp only [List.mem_cons, List.mem_singleton, List.not_mem_nil, or_false] at h1 ⊢
          tauto

/-- The run ends with the message of the plausibility guard only when the
first scan counted fewer than 1024 bytes. -/
theorem main_too_small (w : World) (argv : List CStr)
    (h : (main w argv).1 = .aborted "too small, something is probably wrong.") :
    ∃ bc crc, scan_loop w.session_original 0 0 = some (bc, crc) ∧ bc < 1024 := by
  cases hb : main_begin w argv with
  | stop o tr =>
    rw [main_of_stop w argv o tr hb] at h
    simp only [] at h
    subst h
    rcases main_begin_outcome w argv _ tr hb with h1 | h1
    · exact h1.2
    · simp at h1
  | next s tr =>
    rw [main_of_next w argv s tr hb] at h
    simp only [] at h
    rcases main_edit_outcome w argv s with h1 | h1
    · rw [h1.1] at h; cases h
    · rw [h] at h1
      simp at h1

/-- The run returns 0 only after the `rename`. -/
theorem main_returned_zero (w : World) (argv : List CStr)
    (h : (main w argv).1 = .returned 0) :
    ∃ src dst, Event.rename src dst ∈ (main w argv).2 := by
  cases hb : main_begin w argv with
  | stop o tr =>
    rw [main_of_stop w argv o tr hb] at h
    simp only [] at h
    subst h
    rcases main_begin_outcome w argv _ tr hb with h1 | h1
    · cases h1.1
    · simp at h1
  | next s tr =>
    rw [main_of_next w argv s tr hb] at h ⊢
    simp only [] at h
    rcases main_edit_outcome w argv s with h1 | h1
    · obtain ⟨src, dst, hm⟩ := h1.2
      exact ⟨src, dst, List.mem_append_right _ hm⟩
    · rw [h] at h1
      simp at h1

/-- When the temp file name has no terminator, the run is undefined at line 210. -/
theorem main_edit_unterminated (w : World) (argv : List CStr) (s : Scanned)
    (hparse : (parse_groups (argv.drop 2)).2 = true)
    (hterm : strlen s.temp_filename = none) :
    main_edit w argv s = (.undefined, (parse_groups (argv.drop 2)).1) := by
  unfold main_edit
  rw [option_loop_eq_parse argv argv.length 2 [] (by omega), if_pos hparse]
  simp only [List.nil_append]
  unfold main_save
  simp only [hterm, List.append_nil]

/-- The path saved to is never `argv[1]`, and a `rename` is the last call, comes
after the save and after a second scan that returned the fingerprint of the first. -/
theorem rename_after_verification_aux (w : World) (argv : List CStr) :
    (∀ path, Event.save_as path ∈ (main w argv).2 → argv[1]? ≠ some path) ∧
    (∀ src dst, Event.rename src dst ∈ (main w argv).2 →
      ∃ pre byte_count crc,
        (main w argv).2 = pre ++ [Event.rename src dst] ∧
        (∀ a b, Event.rename a b ∉ pre) ∧
        Event.save_as src ∈ pre ∧ argv[1]? = some dst ∧
        scan_loop w.session_original 0 0 = some (byte_count, crc) ∧ 1024 ≤ byte_count ∧
        0 ≤ w.save_as ∧
        scan_loop w.session_temp 0 0 = some (byte_count, crc)) := by
  cases hb : main_begin w argv with
  | stop o tr =>
    rw [main_of_stop w argv o tr hb]
    have hopen := main_begin_stop w argv o tr hb
    constructor
    · intro path hp
      obtain ⟨q, hq⟩ := hopen _ hp
      cases hq
    · intro src dst hp
      obtain ⟨q, hq⟩ := hopen _ hp
      cases hq
  | next s tr =>
    rw [main_of_next w argv s tr hb]
    obtain ⟨htr, hfile, hscan, hbig, block, max_len, temp0, t, hw, ht, hret, htemp⟩ :=
      main_begin_next w argv s tr hb
    subst htr
    have hns := parse_groups_no_save (argv.drop 2)
    have hnr := parse_groups_no_rename (argv.drop 2)
    have hne : ∀ n, strlen s.temp_filename = some n → s.temp_filename.take n ≠ s.filename := by
      intro n hn
      rw [htemp] at hn ⊢
      exact temp_path_ne block s.filename temp0 max_len w.rand n t hw ht hret hn
    rcases main_edit_trace w argv s with he | ⟨-, he⟩
    · rw [he]
      constructor
      · intro path hp
        simp only [List.mem_append, List.mem_cons, List.not_mem_nil, or_false] at hp
        rcases hp with (hp | hp) | hp
        · cases hp
        · cases hp
        · exact absurd hp (hns path)
      · intro src dst hp
        simp only [List.mem_append, List.mem_cons, List.not_mem_nil, or_false] at hp
        rcases hp with (hp | hp) | hp
        · cases hp
        · cases hp
        · exact absurd hp (hnr src dst)
    · rw [he]
      rcases main_save_cases w s with hs | ⟨n, hn, hs | hs | ⟨hs, hsave, hscan2⟩⟩
      all_goals rw [hs]
      · constructor
        · intro path hp
          simp only [List.mem_append, List.mem_cons, List.not_mem_nil, or_false] at hp
          rcases hp with (hp | hp) | hp
          · cases hp
          · cases hp
          · exact absurd hp (hns path)
        · intro src dst hp
          simp only [List.mem_append, List.mem_cons, List.not_mem_nil, or_false] at hp
          rcases hp with (hp | hp) | hp
          · cases hp
          · cases hp
          · exact absurd hp (hnr src dst)
      · constructor
        · intro path hp
          simp only [List.mem_append, List.mem_cons, List.not_mem_nil, or_false] at hp
          rcases hp with (hp | hp) | hp | hp
          · cases hp
          · cases hp
          · exact absurd hp (hns path)
          · cases hp
            rw [hfile]
            intro heq
            exact hne n hn (Option.some.inj heq).symm
        · intro src dst hp
          simp only [List.mem_append, List.mem_cons, List.not_mem_nil, or_false] at hp
          rcases hp with (hp | hp) | hp | hp
          · cases hp
          · cases hp
          · exact absurd hp (hnr src dst)
          · cases hp
      · constructor
        · intro path hp
          simp only [List.mem_append, List.mem_cons, List.not_mem_nil, or_false] at hp
          rcases hp with (hp | hp) | hp | hp | hp
          · cases hp
          · cases hp
          · exact absurd hp (hns path)
          · cases hp
            rw [hfile]
            intro heq
            exact hne n hn (Option.some.inj heq).symm
          · cases hp
        · intro src dst hp
          simp only [List.mem_append, List.mem_cons, List.not_mem_nil, or_false] at hp
          rcases hp with (hp | hp) | hp | hp | hp
          · cases hp
          · cases hp
          · exact absurd hp (hnr src dst)
          · cases hp
          · cases hp
      · constructor
        · intro path hp
          simp only [List.mem_append, List.mem_cons, List.not_mem_nil, or_false] at hp
          rcases hp with (hp | hp) | hp | hp | hp | hp
          · cases hp
          · cases hp
          · exact absurd hp (hns path)
          · cases hp
            rw [hfile]
            intro heq
            exact hne n hn (Option.some.inj heq).symm
          · cases hp
          · cases hp
        · intro src dst hp
          simp only [List.mem_append, List.mem_cons, List.not_mem_nil, or_false] at hp
          rcases hp with (hp | hp) | hp | hp | hp | hp
          · cases hp
          · cases hp
          · exact absurd hp (hnr src dst)
          · cases hp
          · cases hp
          · cases hp
            refine ⟨[.file_open s.filename, .file_open s.filename]
              ++ ((parse_groups (argv.drop 2)).1
                ++ [.save_as (s.temp_filename.take n), .file_open (s.temp_filename.take n)]),
              s.byte_count_begin, s.crc_begin, by simp, ?_, by simp, hfile, hscan, hbig,
              hsave, hscan2⟩
            intro a b hab
            simp only [List.mem_append, List.mem_cons, List.not_mem_nil, or_false] at hab
            rcases hab with (hab | hab) | hab | hab | hab
            · cases hab
            · cases hab
            · exact absurd hab (hnr a b)
            · cases hab
            · cases hab

/-! ## Lemmas on the concrete runs -/

theorem scan_loop_one (d : List UChar) (n : Int) (h : (d.length : Int) = n)
    (hn : wrapInt (0 + n) = n) :
    scan_loop [⟨some d, n⟩] 0 0
      = some (n, d.foldl crc_step (0 ^^^ 0xffffffff) ^^^ 0xffffffff) := by
  subst h
  simp only [scan_loop, crc32_exact, hn]

theorem demo_audio_length : (demo_audio.length : Int) = 1024 := by
  unfold demo_audio
  rw [List.length_replicate]
  rfl

theorem demo_scan : scan_loop [⟨some demo_audio, 1024⟩] 0 0 = some (1024, demo_crc) :=
  scan_loop_one demo_audio 1024 demo_audio_length (by decide)

theorem session_audio_one (d : List UChar) (n : Int) :
    session_audio [⟨some d, n⟩] = d := by
  simp [session_audio]

theorem carries_data_one (d : List UChar) (n : Int) (h : (d.length : Int) = n) :
    ∀ b ∈ [GrooveBuffer.mk (some d) n], b.carries_data := by
  intro b hb
  rw [List.mem_singleton.mp hb]
  show some ((d.length : Nat) : Int) = some n
  rw [h]

theorem demo_audio_set_length : ((demo_audio.set 5 8).length : Int) = 1024 := by
  rw [List.length_set]
  exact demo_audio_length

theorem demo_scan_temp : scan_loop demo_world.session_temp 0 0 = some (1024, demo_crc) := by
  have hc : ∀ b ∈ demo_world.session_temp, b.carries_data := by
    intro b hb
    have hmem : b = ⟨some (demo_audio.take 1000), 1000⟩
        ∨ b = ⟨some (demo_audio.drop 1000), 24⟩ := by
      simpa [demo_world] using hb
    have hl : demo_audio.length = 1024 := by
      unfold demo_audio
      rw [List.length_replicate]
    rcases hmem with rfl | rfl
    · show some (((demo_audio.take 1000).length : Nat) : Int) = some 1000
      rw [List.length_take, hl]
      rfl
    · show some (((demo_audio.drop 1000).length : Nat) : Int) = some 24
      rw [List.length_drop, hl]
      rfl
  have ha : session_audio demo_world.session_temp = demo_audio := by
    unfold session_audio
    simp only [demo_world, List.map_cons, List.map_nil, Option.getD_some, List.flatten_cons,
      List.flatten_nil, List.append_nil, List.take_append_drop]
  rw [scan_loop_carries _ 0 0 hc, ha]
  rfl

/-- A run in which every call succeeds and the second scan returns the
fingerprint of the first ends with the rename and returns 0. -/
theorem main_publishes (w : World) (argv : List CStr) (filename : CStr)
    (content : Nat → Nat) (n : Nat) (bc : Int) (crc : Nat)
    (hargv : argv[1]? = some filename) (hnul : ∀ x ∈ filename, x ≠ 0)
    (hlen : filename.length + 32 < 2 ^ 31) (hmalloc : w.malloc = some content)
    (hopen : w.open_original = true) (hattach : 0 ≤ w.attach_original)
    (hscan : scan_loop w.session_original 0 0 = some (bc, crc)) (hbig : 1024 ≤ bc)
    (hreopen : w.reopen_original = true)
    (hparse : (parse_groups (argv.drop 2)).2 = true)
    (hterm : strlen (temp_block filename content w.rand) = some n) (hsave : 0 ≤ w.save_as)
    (hopen2 : w.open_temp = true) (hattach2 : 0 ≤ w.attach_temp)
    (hscan2 : scan_loop w.session_temp 0 0 = some (bc, crc)) (hrename : w.rename = 0) :
    main w argv = (.returned 0,
      [.file_open filename, .file_open filename] ++
        ((parse_groups (argv.drop 2)).1 ++
          [.save_as ((temp_block filename content w.rand).take n),
           .file_open ((temp_block filename content w.rand).take n),
           .rename ((temp_block filename content w.rand).take n) filename])) := by
  have hb := main_begin_reaches_guard w argv filename content _ _ hargv hnul hlen hmalloc
    hopen hattach hscan hreopen
  rw [if_neg (by omega)] at hb
  rw [main_of_next w argv _ _ hb,
    main_edit_reaches_verify w argv _ n _ _ hparse hterm hsave hopen2 hattach2 hscan2]
  unfold main_verify
  rw [if_neg (by simp), if_neg (by simp [hrename])]
  simp

theorem demo_run :
    main demo_world demo_argv = (.returned 0,
      [.file_open demo_filename, .file_open demo_filename,
       .metadata_set [107] (some [118]), .metadata_set [120] none,
       .save_as demo_temp, .file_open demo_temp, .rename demo_temp demo_filename]) :=
  (main_publishes demo_world demo_argv demo_filename (fun _ => 0) 17 1024 demo_crc rfl
    (by decide) (by decide) rfl rfl (by decide) demo_scan (by decide) rfl (by decide)
    (by decide) (by decide) rfl (by decide) demo_scan_temp rfl).trans (by decide)

/-! ## The claims -/

/-- C3. In every run of `main`, whatever the collaborators answer: the path given
to `groove_file_save_as` is never the original file name `argv[1]`; and when
`rename` is called, it is the last call of the run and the only `rename`, it
renames the saved temp path to `argv[1]`, the save came before it and had
returned success, the first scan had counted at least 1024 bytes, and the scan of
the temp file returned the same byte count and the same checksum as the first. -/
theorem rename_only_after_verification (w : World) (argv : List CStr) :
    (∀ path, Event.save_as path ∈ (main w argv).2 → argv[1]? ≠ some path) ∧
    (∀ src dst, Event.rename src dst ∈ (main w argv).2 →
      ∃ pre byte_count crc,
        (main w argv).2 = pre ++ [Event.rename src dst] ∧
        (∀ a b, Event.rename a b ∉ pre) ∧
        Event.save_as src ∈ pre ∧ argv[1]? = some dst ∧
        scan_loop w.session_original 0 0 = some (byte_count, crc) ∧ 1024 ≤ byte_count ∧
        0 ≤ w.save_as ∧
        scan_loop w.session_temp 0 0 = some (byte_count, crc)) :=
  rename_after_verification_aux w argv

/-- C1. For every byte sequence `b`, `crc32(0, b, |b|)` is the standard CRC-32
of `b` computed bit by bit (reflected polynomial `0xEDB88320`, initial register
and final xor `0xFFFFFFFF`); every entry `crc_table[i]` is eight reflected
shift-and-conditionally-xor steps applied to `i`; and the bytes of "123456789"
give `0xCBF43926`. -/
theorem crc32_is_standard_crc32 :
    (∀ b : List UChar, crc32 0 (some b) (b.length : Int) = some (crc32_reference b)) ∧
    (∀ i : Fin 256, crc_table.getD i.val 0 = Nat.iterate crc32_bit_step 8 i.val) ∧
    crc32 0 (some check_input) 9 = some 0xCBF43926 := by
  refine ⟨?_, ?_, by decide⟩
  · intro b
    rw [crc32_exact, foldl_crc_step_eq_bitwise]
    rfl
  · intro i
    exact crc_table_getD i.val i.isLt

/-- C2. The checksum does not depend on the chunking: the decode loop of `main`,
run from 0 over any list of chunks (buffers holding their bytes), ends with
`crc32(0, c1 ++ ... ++ cn, total length)`; for two chunks
`crc32(crc32(0, a), b) = crc32(0, a ++ b)`; no chunk at all and one empty chunk
both give 0. -/
theorem crc32_chunking_independent :
    (∀ chunks : List (List UChar),
      session_digest (chunks.map (fun c => GrooveBuffer.mk (some c) (c.length : Int)))
        = crc32 0 (some chunks.flatten) (chunks.flatten.length : Int)) ∧
    (∀ a b : List UChar,
      (crc32 0 (some a) (a.length : Int)).bind (fun c => crc32 c (some b) (b.length : Int))
        = crc32 0 (some (a ++ b)) ((a ++ b).length : Int)) ∧
    session_digest [] = some 0 ∧
    session_digest [GrooveBuffer.mk (some []) 0] = some 0 ∧
    crc32 0 (some []) 0 = some 0 := by
  refine ⟨?_, fun a b => crc32_append 0 a b, by decide, by decide, by decide⟩
  intro chunks
  have hc : ∀ b ∈ chunks.map (fun c => GrooveBuffer.mk (some c) (c.length : Int)),
      b.carries_data := by
    intro b hb
    obtain ⟨c, -, rfl⟩ := List.mem_map.mp hb
    simp [GrooveBuffer.carries_data]
  have ha : session_audio (chunks.map (fun c => GrooveBuffer.mk (some c) (c.length : Int)))
      = chunks.flatten := by
    unfold session_audio
    have hid : ((fun b : GrooveBuffer => b.data.getD [])
        ∘ fun c : List UChar => GrooveBuffer.mk (some c) (c.length : Int)) = id := by
      funext c
      rfl
    rw [List.map_map, hid, List.map_id]
  unfold session_digest
  rw [scan_loop_carries _ 0 0 hc, crc32_exact, ha]
  rfl

/-- C9, the claim refuted: `crc32(1, NULL, 0)` is 0 and not the running value 1;
and a session of one data buffer followed by a null buffer does not have the
digest of the session without the null buffer. -/
theorem crc32_null_does_not_keep_running_value :
    crc32 1 none 0 ≠ some 1 ∧
    session_digest [GrooveBuffer.mk (some [1]) 1, GrooveBuffer.mk none 0]
      ≠ session_digest [GrooveBuffer.mk (some [1]) 1] := by
  constructor <;> decide

/-- C9 as amended. For a null buffer `crc32` returns 0 whatever the running
value and `len` are, so a null buffer restarts the checksum: a session in which
a null buffer follows well-formed buffers has the digest of the buffers after
the null buffer alone. -/
theorem crc32_null_restarts (c : Nat) (len size : Int) (before after : List GrooveBuffer)
    (h : ∀ b ∈ before, b.well_formed) :
    crc32 c none len = some 0 ∧
    session_digest (before ++ GrooveBuffer.mk none size :: after) = session_digest after := by
  refine ⟨rfl, ?_⟩
  obtain ⟨c1, hc1⟩ := scan_loop_defined before 0 0 h
  unfold session_digest
  rw [scan_loop_append, hc1]
  simp only [Option.bind, scan_loop, crc32]
  exact scan_loop_snd after _ _ 0

/-- Witness of `crc32_null_restarts`. -/
theorem crc32_null_restarts_witness :
    (∀ b ∈ [GrooveBuffer.mk (some [1, 2]) 2], b.well_formed) ∧
    crc32 7 none 3 = some 0 ∧
    session_digest ([GrooveBuffer.mk (some [1, 2]) 2]
        ++ GrooveBuffer.mk none 3 :: [GrooveBuffer.mk (some [9]) 1])
      = session_digest [GrooveBuffer.mk (some [9]) 1] :=
  ⟨by decide, crc32_null_restarts 7 3 3 [GrooveBuffer.mk (some [1, 2]) 2]
    [GrooveBuffer.mk (some [9]) 1] (by decide)⟩

/-- C10, the claim refuted: the 524288 buffers of `long_session` are well formed
and their sizes sum to `2^31`, far below `2^64`, yet the decode loop ends with
the byte count `-2^31`, which is not the sum and is below the 1024 of the guard. -/
theorem byte_count_wraps_past_int_max :
    (∀ b ∈ long_session, b.well_formed) ∧
    session_total long_session = 2147483648 ∧ session_total long_session < 2 ^ 64 ∧
    (scan_loop long_session 0 0).map Prod.fst = some (-2147483648) ∧
    (scan_loop long_session 0 0).map Prod.fst ≠ some (session_total long_session) := by
  have htot : session_total long_session = 2147483648 := by
    unfold long_session
    rw [session_total_replicate]
    show ((524288 : Nat) : Int) * 4096 = 2147483648
    norm_num
  obtain ⟨c1, hc1⟩ := scan_loop_defined long_session 0 0 long_session_well_formed
  rw [byte_count_after_long_session] at hc1
  refine ⟨long_session_well_formed, htot, by rw [htot]; norm_num, by rw [hc1]; rfl, ?_⟩
  rw [hc1, htot]
  simp

/-- C10 as amended. For well-formed buffers whose sizes sum to less than `2^31`
(the range of the `int` counter), the decode loop is defined and ends with the
exact sum as byte count; two such sessions with different sums end with
different byte counts; and when the sum is at least 1024, no run of `main` on
that session ends with the message of the plausibility guard. -/
theorem byte_count_exact_within_int (bufs : List GrooveBuffer)
    (hwf : ∀ b ∈ bufs, b.well_formed) (hsum : session_total bufs < 2 ^ 31) :
    (∃ crc, scan_loop bufs 0 0 = some (session_total bufs, crc)) ∧
    (∀ other : List GrooveBuffer, (∀ b ∈ other, b.well_formed) →
      session_total other < 2 ^ 31 → session_total bufs ≠ session_total other →
      (scan_loop bufs 0 0).map Prod.fst ≠ (scan_loop other 0 0).map Prod.fst) ∧
    (1024 ≤ session_total bufs → ∀ (w : World) (argv : List CStr),
      w.session_original = bufs →
      (main w argv).1 ≠ .aborted "too small, something is probably wrong.") := by
  have key : ∀ l : List GrooveBuffer, (∀ b ∈ l, b.well_formed) → session_total l < 2 ^ 31 →
      ∃ crc, scan_loop l 0 0 = some (session_total l, crc) := by
    intro l hl hs
    obtain ⟨c1, hc1⟩ := scan_loop_defined l 0 0 hl
    have := byte_count_after_exact l 0 (fun b hb => (hl b hb).1) (Int.le_refl 0)
      (by rw [Int.zero_add]; exact hs)
    rw [Int.zero_add] at this
    rw [this] at hc1
    exact ⟨c1, hc1⟩
  refine ⟨key bufs hwf hsum, ?_, ?_⟩
  · intro other ho hso hne
    obtain ⟨c1, hc1⟩ := key bufs hwf hsum
    obtain ⟨c2, hc2⟩ := key other ho hso
    rw [hc1, hc2]
    simpa using hne
  · intro hbig w argv hw hsmall
    obtain ⟨bc, crc, hscan, hlt⟩ := main_too_small w argv hsmall
    obtain ⟨c1, hc1⟩ := key bufs hwf hsum
    rw [hw, hc1] at hscan
    simp only [Option.some.injEq, Prod.mk.injEq] at hscan
    omega

/-- C5, the defect shown on a block of 32 bytes that holds "c.mp3", its
terminator and 26 bytes of value 88, with `max_len = 32` and `rand() = 0`:
`strlen` plus 10 is within the budget, `tempfileify` returns 0, and the block
then holds ".tmp00000-c.mp3" followed by 17 bytes 88: the terminator was
overwritten and none was stored, so the block holds no NUL-terminated string.
In `main`, on a block that `malloc` returns filled with 88, the run is then
undefined when the temp file name is first read. -/
theorem tempfileify_stores_no_terminator :
    strlen dirty_block = some 5 ∧ dirty_block.length = 32 ∧
    tempfileify dirty_block 32 0
      = some ⟨0, [46, 116, 109, 112, 48, 48, 48, 48, 48, 45, 99, 46, 109, 112, 51]
          ++ List.replicate 17 88, [(10, 5), (0, 10)]⟩ ∧
    strlen ([46, 116, 109, 112, 48, 48, 48, 48, 48, 45, 99, 46, 109, 112, 51]
      ++ List.replicate 17 88) = none ∧
    (main dirty_world demo_argv).1 = Outcome.undefined := by
  refine ⟨by decide, by decide, by decide, by decide, ?_⟩
  have hb := main_begin_reaches_guard dirty_world demo_argv demo_filename (fun _ => 88)
    1024 demo_crc rfl (by decide) (by decide) rfl rfl (by decide) demo_scan rfl
  rw [if_neg (by decide)] at hb
  rw [main_of_next _ _ _ _ hb, main_edit_unterminated _ _ _ (by decide) (by decide)]

/-- C6. For a block holding a NUL-terminated string of length `len` (the block
within the size an object can have): when `len + 10` exceeds `max_len`,
`tempfileify` returns -1, leaves the block unchanged and stores nothing; when
`len + 10` is within `max_len` and `max_len` within the block, it returns 0, the
block keeps its size, every store ends at or below `max_len`, and every byte at
an index from `max_len` on is unchanged; and whenever it returns, it returns -1
exactly when `len + 10` exceeds `max_len`. -/
theorem tempfileify_length_budget (str : List Nat) (len max_len r : Nat)
    (hlen : strlen str = some len) (hobj : str.length < 2 ^ 63) :
    (max_len < len + 10 → tempfileify str max_len r = some ⟨-1, str, []⟩) ∧
    (len + 10 ≤ max_len → max_len ≤ str.length →
      ∃ t, tempfileify str max_len r = some t ∧ t.ret = 0 ∧
        t.mem.length = str.length ∧
        (∀ store ∈ t.writes, store.1 + store.2 ≤ max_len) ∧
        ∀ k, max_len ≤ k → t.mem[k]? = str[k]?) ∧
    (∀ t, tempfileify str max_len r = some t →
      (t.ret = -1 ↔ max_len < len + 10) ∧ (t.ret = -1 ∨ t.ret = 0) ∧
      (t.ret = -1 → t.mem = str ∧ t.writes = []) ∧
      (t.ret = 0 → ∀ store ∈ t.writes, store.1 + store.2 ≤ max_len)) := by
  have hlt := (strlen_spec str len hlen).1
  have hpos : insert_pos (str.take len) ≤ len := by
    have := insert_pos_le (str.take len)
    rw [List.length_take] at this
    omega
  refine ⟨tempfileify_too_long str len max_len r hlen hobj, ?_, ?_⟩
  · intro hfit hcap
    refine ⟨_, tempfileify_fits str len max_len r hlen hobj hfit hcap, rfl, ?_, ?_, ?_⟩
    · simp only [List.length_append, List.length_take, List.length_drop, snprintf_tmp_length]
      omega
    · intro store hs
      simp only [List.mem_cons, List.mem_singleton, List.not_mem_nil, or_false] at hs
      rcases hs with rfl | rfl
      · simp only []; omega
      · simp only []; omega
    · intro k hk
      have hpre : (str.take (insert_pos (str.take len)) ++ snprintf_tmp (r % 99999)
          ++ (str.take len).drop (insert_pos (str.take len))).length = len + 10 := by
        simp only [List.length_append, List.length_take, List.length_drop,
          snprintf_tmp_length]
        omega
      simp only []
      rw [List.getElem?_append_right (by rw [hpre]; omega), hpre, List.getElem?_drop]
      congr 1
      omega
  · intro t ht
    rcases tempfileify_ret str len max_len r t hlen hobj ht with ⟨hb, rfl⟩ | ⟨hb, hret⟩
    · refine ⟨⟨fun _ => hb, fun _ => rfl⟩, Or.inl rfl, fun _ => ⟨rfl, rfl⟩, ?_⟩
      intro _ store hs
      simp at hs
    · obtain ⟨len2, hlen2, hcap, -, hwrites⟩ := tempfileify_shape str max_len r t ht hret
      rw [hlen] at hlen2
      have hl : len = len2 := Option.some.inj hlen2
      subst hl
      have hne : t.ret ≠ -1 := by rw [hret]; decide
      refine ⟨⟨fun h => absurd h hne, fun h => absurd h (by omega)⟩, Or.inr hret,
        fun h => absurd h hne, ?_⟩
      intro _ store hs
      rw [hwrites] at hs
      simp only [List.mem_cons, List.mem_singleton, List.not_mem_nil, or_false] at hs
      rcases hs with rfl | rfl
      · simp only []; omega
      · simp only []; omega

/-- Witness of `tempfileify_length_budget`: "c.mp3" in a block of 32 bytes, with
the budgets 14 (too small) and 32. -/
theorem tempfileify_length_budget_witness :
    strlen clean_block = some 5 ∧ clean_block.length < 2 ^ 63 ∧
    tempfileify clean_block 14 0 = some ⟨-1, clean_block, []⟩ ∧
    ∃ t, tempfileify clean_block 32 0 = some t ∧ t.ret = 0 ∧
      t.mem.length = clean_block.length ∧
      (∀ store ∈ t.writes, store.1 + store.2 ≤ 32) ∧
      ∀ k, 32 ≤ k → t.mem[k]? = clean_block[k]? :=
  ⟨by decide, by decide,
    (tempfileify_length_budget clean_block 5 14 0 (by decide) (by decide)).1 (by decide),
    (tempfileify_length_budget clean_block 5 32 0 (by decide) (by decide)).2.1
      (by decide) (by decide)⟩

/-- C7. In a run in which the block for the temp name is allocated, the original
opens, the sink attaches, the decode loop ends with the byte count `bc`, and the
original reopens: when `bc` is below 1024, `main` aborts with "too small,
something is probably wrong." having made no call but the two openings of the
original, whatever the remaining arguments are; when `bc` is 1024 or more, the
guard is passed and the run does not end with that message. -/
theorem plausibility_guard (w : World) (argv : List CStr) (filename : CStr)
    (content : Nat → Nat) (bc : Int) (crc : Nat)
    (hargv : argv[1]? = some filename) (hnul : ∀ x ∈ filename, x ≠ 0)
    (hlen : filename.length + 32 < 2 ^ 31) (hmalloc : w.malloc = some content)
    (hopen : w.open_original = true) (hattach : 0 ≤ w.attach_original)
    (hscan : scan_loop w.session_original 0 0 = some (bc, crc))
    (hreopen : w.reopen_original = true) :
    (bc < 1024 →
      main w argv = (.aborted "too small, something is probably wrong.",
        [.file_open filename, .file_open filename])) ∧
    (1024 ≤ bc →
      main_begin w argv = .next ⟨filename, temp_block filename content w.rand, crc, bc⟩
        [.file_open filename, .file_open filename] ∧
      (main w argv).1 ≠ .aborted "too small, something is probably wrong.") := by
  have hb := main_begin_reaches_guard w argv filename content bc crc hargv hnul hlen hmalloc
    hopen hattach hscan hreopen
  constructor
  · intro hsmall
    rw [if_pos hsmall] at hb
    exact main_of_stop w argv _ _ hb
  · intro hbig
    rw [if_neg (by omega)] at hb
    refine ⟨hb, ?_⟩
    intro hc
    obtain ⟨bc2, crc2, hscan2, hlt⟩ := main_too_small w argv hc
    rw [hscan] at hscan2
    simp only [Option.some.injEq, Prod.mk.injEq] at hscan2
    omega

/-- Witness of `plausibility_guard`: sessions of 512 bytes, of no byte, and of
1024 bytes, with the command line of `demo_argv`. -/
theorem plausibility_guard_witness :
    main short_world demo_argv = (.aborted "too small, something is probably wrong.",
      [.file_open demo_filename, .file_open demo_filename]) ∧
    main silent_world demo_argv = (.aborted "too small, something is probably wrong.",
      [.file_open demo_filename, .file_open demo_filename]) ∧
    (main demo_world demo_argv).1 ≠ .aborted "too small, something is probably wrong." :=
  ⟨(plausibility_guard short_world demo_argv demo_filename (fun _ => 0) 512
      ((List.replicate 512 7).foldl crc_step (0 ^^^ 0xffffffff) ^^^ 0xffffffff)
      rfl (by decide) (by decide) rfl rfl (by decide)
      (scan_loop_one (List.replicate 512 7) 512
        (by rw [List.length_replicate]; rfl) (by decide)) rfl).1 (by decide),
   (plausibility_guard silent_world demo_argv demo_filename (fun _ => 0) 0 0
      rfl (by decide) (by decide) rfl rfl (by decide) rfl rfl).1 (by decide),
   ((plausibility_guard demo_world demo_argv demo_filename (fun _ => 0) 1024 demo_crc
      rfl (by decide) (by decide) rfl rfl (by decide) demo_scan rfl).2 (by decide)).2⟩

/-- C8. With fewer than two arguments `main` returns 1 having made no call. For
every argument vector the option loop, run from index 2, ends without reading
outside `argv[0 .. argc-1]`: when `argv[2..]` is a sequence of groups
`--update key value` and `--delete key`, it has issued one metadata call per
group, in order; otherwise it returns the usage status at the first malformed
group, having issued the calls of the groups before it. In the second case the
run makes no call of save or rename and, when it reaches the loop, returns 1;
in the first case the calls the run makes after the loop are no metadata calls. -/
theorem option_parsing (w : World) (argv : List CStr) :
    (argv.length < 2 → main w argv = (.returned 1, [])) ∧
    (option_loop argv argv.length 2 [] =
      if (parse_groups (argv.drop 2)).2 then .done (parse_groups (argv.drop 2)).1
      else .usage (parse_groups (argv.drop 2)).1) ∧
    ((parse_groups (argv.drop 2)).2 = false →
      (∀ path, Event.save_as path ∉ (main w argv).2) ∧
      (∀ a b, Event.rename a b ∉ (main w argv).2) ∧
      ∀ s tr, main_begin w argv = .next s tr →
        main w argv = (.returned 1, tr ++ (parse_groups (argv.drop 2)).1)) ∧
    ((parse_groups (argv.drop 2)).2 = true →
      ∀ s tr, main_begin w argv = .next s tr →
        ∃ rest, (∀ key value, Event.metadata_set key value ∉ rest) ∧
          (main w argv).2 = tr ++ ((parse_groups (argv.drop 2)).1 ++ rest)) := by
  have hloop := option_loop_eq_parse argv argv.length 2 [] (by omega)
  simp only [List.nil_append] at hloop
  refine ⟨?_, hloop, ?_, ?_⟩
  · intro h
    unfold main main_begin
    rw [if_pos h]
  · intro hbad
    have hedit : ∀ s, main_edit w argv s = (.returned 1, (parse_groups (argv.drop 2)).1) := by
      intro s
      unfold main_edit
      rw [hloop, if_neg (by rw [hbad]; decide)]
    have hns := parse_groups_no_save (argv.drop 2)
    have hnr := parse_groups_no_rename (argv.drop 2)
    cases hb : main_begin w argv with
    | stop o tr =>
      rw [main_of_stop w argv o tr hb]
      have hopen := main_begin_stop w argv o tr hb
      refine ⟨?_, ?_, ?_⟩
      · intro path hp
        obtain ⟨q, hq⟩ := hopen _ hp
        cases hq
      · intro a b hp
        obtain ⟨q, hq⟩ := hopen _ hp
        cases hq
      · intro s tr2 hc
        cases hc
    | next s tr =>
      rw [main_of_next w argv s tr hb, hedit]
      obtain ⟨htr, -⟩ := main_begin_next w argv s tr hb
      refine ⟨?_, ?_, ?_⟩
      · intro path hp
        rw [htr] at hp
        simp only [List.mem_append, List.mem_cons, List.not_mem_nil, or_false] at hp
        rcases hp with (hp | hp) | hp
        · cases hp
        · cases hp
        · exact hns path hp
      · intro a b hp
        rw [htr] at hp
        simp only [List.mem_append, List.mem_cons, List.not_mem_nil, or_false] at hp
        rcases hp with (hp | hp) | hp
        · cases hp
        · cases hp
        · exact hnr a b hp
      · intro s2 tr2 hc
        simp only [Phase.next.injEq] at hc
        rw [← hc.2]
  · intro hgood s tr hb
    rw [main_of_next w argv s tr hb]
    refine ⟨(main_save w s).2, ?_, ?_⟩
    · intro key value hm
      rcases main_save_cases w s with hs | ⟨n, -, hs | hs | ⟨hs, -, -⟩⟩
      all_goals rw [hs] at hm
      all_goals simp at hm
    · unfold main_edit
      rw [hloop, if_pos hgood]

/-- Witness of `option_parsing`: one argument only, the well-formed command line
`demo_argv`, and `bad_argv`, whose last group lacks its key. -/
theorem option_parsing_witness :
    main demo_world [[112, 114, 111, 103]] = (.returned 1, []) ∧
    option_loop demo_argv 7 2 []
      = .done [.metadata_set [107] (some [118]), .metadata_set [120] none] ∧
    option_loop bad_argv 6 2 [] = .usage [.metadata_set [107] (some [118])] ∧
    (∀ path, Event.save_as path ∉ (main demo_world bad_argv).2) ∧
    (∀ a b, Event.rename a b ∉ (main demo_world bad_argv).2) :=
  ⟨(option_parsing demo_world [[112, 114, 111, 103]]).1 (by decide),
   (option_parsing demo_world demo_argv).2.1.trans (by decide),
   (option_parsing demo_world bad_argv).2.1.trans (by decide),
   ((option_parsing demo_world bad_argv).2.2.1 (by decide)).1,
   ((option_parsing demo_world bad_argv).2.2.1 (by decide)).2.1⟩

/-- C4. Replacing one byte of a byte sequence by a different value changes its
`crc32`. Hence, when both scans deliver buffers that carry their data and the
audio decoded from the temp file is the original audio with one byte replaced:
the two digests differ, no run calls `rename` or returns 0, and a run whose
calls succeed up to the second scan (the temp file name terminated, the options
well formed, the audio of 1024 bytes or more and within the `int` range) aborts
with "checksum failed" after the save and the reopening of the temp file. -/
theorem single_byte_corruption_detected (s : List UChar) (i : Nat) (v : UChar)
    (hi : i < s.length) (hv : v ≠ s[i]) :
    crc32 0 (some s) (s.length : Int)
      ≠ crc32 0 (some (s.set i v)) ((s.set i v).length : Int) ∧
    ∀ (w : World) (argv : List CStr),
      (∀ b ∈ w.session_original, b.carries_data) → (∀ b ∈ w.session_temp, b.carries_data) →
      session_audio w.session_original = s → session_audio w.session_temp = s.set i v →
      session_digest w.session_original ≠ session_digest w.session_temp ∧
      (∀ a b, Event.rename a b ∉ (main w argv).2) ∧
      (main w argv).1 ≠ .returned 0 ∧
      ∀ (filename : CStr) (content : Nat → Nat) (n : Nat),
        argv[1]? = some filename → (∀ x ∈ filename, x ≠ 0) →
        filename.length + 32 < 2 ^ 31 → w.malloc = some content →
        w.open_original = true → 0 ≤ w.attach_original → w.reopen_original = true →
        1024 ≤ s.length → s.length < 2 ^ 31 →
        (parse_groups (argv.drop 2)).2 = true →
        strlen (temp_block filename content w.rand) = some n →
        0 ≤ w.save_as → w.open_temp = true → 0 ≤ w.attach_temp →
        main w argv = (.aborted "checksum failed",
          [.file_open filename, .file_open filename] ++
            ((parse_groups (argv.drop 2)).1 ++
              [.save_as ((temp_block filename content w.rand).take n),
               .file_open ((temp_block filename content w.rand).take n)])) := by
  have hF : (0 ^^^ 0xffffffff : Nat) < 2 ^ 32 := by decide
  have hfold : (s.set i v).foldl crc_step (0 ^^^ 0xffffffff) ^^^ 0xffffffff
      ≠ s.foldl crc_step (0 ^^^ 0xffffffff) ^^^ 0xffffffff := by
    intro h
    exact foldl_crc_step_set_ne s i v _ hF hi hv (Nat.xor_left_inj.mp h)
  constructor
  · rw [crc32_exact, crc32_exact]
    intro h
    exact hfold (Option.some.inj h).symm
  · intro w argv hwf1 hwf2 ha1 ha2
    have hs1 := scan_loop_carries w.session_original 0 0 hwf1
    have hs2 := scan_loop_carries w.session_temp 0 0 hwf2
    rw [ha1] at hs1
    rw [ha2] at hs2
    have hdig : session_digest w.session_original ≠ session_digest w.session_temp := by
      unfold session_digest
      rw [hs1, hs2]
      intro h
      exact hfold (Option.some.inj h).symm
    have hnr : ∀ a b, Event.rename a b ∉ (main w argv).2 := by
      intro a b hab
      obtain ⟨pre, bc, crc, -, -, -, -, h1, -, -, h2⟩ :=
        (rename_after_verification_aux w argv).2 a b hab
      apply hdig
      unfold session_digest
      rw [h1, h2]
    refine ⟨hdig, hnr, ?_, ?_⟩
    · intro h0
      obtain ⟨a, b, hab⟩ := main_returned_zero w argv h0
      exact hnr a b hab
    · intro filename content n hargv hnul hlen hmalloc hopen hattach hreopen hbig hint
        hparse hterm hsave hopen2 hattach2
      have htot : session_total w.session_original = (s.length : Int) := by
        rw [session_total_eq_length _ hwf1, ha1]
      have hbc : byte_count_after w.session_original 0 = (s.length : Int) := by
        have := byte_count_after_exact w.session_original 0
          (fun b hb => by
            obtain ⟨d, -, hd⟩ := (carries_data_iff b).mp (hwf1 b hb)
            rw [hd]; exact Int.natCast_nonneg _)
          (Int.le_refl 0) (by rw [htot, Int.zero_add]; exact_mod_cast hint)
        rw [this, htot, Int.zero_add]
      rw [hbc] at hs1
      have hb := main_begin_reaches_guard w argv filename content _ _ hargv hnul hlen hmalloc
        hopen hattach hs1 hreopen
      rw [if_neg (by omega)] at hb
      rw [main_of_next w argv _ _ hb,
        main_edit_reaches_verify w argv _ n _ _ hparse hterm hsave hopen2 hattach2 hs2]
      unfold main_verify
      rw [if_pos (Or.inl (fun h => hfold h.symm))]
      simp

/-- Witness of `single_byte_corruption_detected`: byte 5 of 1024 bytes of
audio is 8 instead of 7 after the edit. -/
theorem single_byte_corruption_detected_witness :
    crc32 0 (some demo_audio) (demo_audio.length : Int)
      ≠ crc32 0 (some (demo_audio.set 5 8)) ((demo_audio.set 5 8).length : Int) ∧
    main corrupt_world demo_argv = (.aborted "checksum failed",
      [.file_open demo_filename, .file_open demo_filename,
       .metadata_set [107] (some [118]), .metadata_set [120] none,
       .save_as demo_temp, .file_open demo_temp]) :=
  have hlen : demo_audio.length = 1024 := by
    unfold demo_audio
    rw [List.length_replicate]
  have h := single_byte_corruption_detected demo_audio 5 8 (by rw [hlen]; decide)
    (by unfold demo_audio; rw [List.getElem_replicate]; decide)
  ⟨h.1, ((h.2 corrupt_world demo_argv (carries_data_one demo_audio 1024 demo_audio_length)
      (carries_data_one (demo_audio.set 5 8) 1024 demo_audio_set_length)
      (session_audio_one demo_audio 1024)
      (session_audio_one (demo_audio.set 5 8) 1024)).2.2.2 demo_filename (fun _ => 0) 17 rfl
      (by decide) (by decide) rfl rfl (by decide) rfl (by rw [hlen]) (by rw [hlen]; decide)
      (by decide) (by decide) (by decide) rfl (by decide)).trans (by decide)⟩

/-- Witness of `rename_only_after_verification`: the run of `demo_world` calls
`rename`, after the save, with equal fingerprints of 1024 bytes. -/
theorem rename_only_after_verification_witness :
    Event.rename demo_temp demo_filename ∈ (main demo_world demo_argv).2 ∧
    ∃ pre byte_count crc,
      (main demo_world demo_argv).2 = pre ++ [Event.rename demo_temp demo_filename] ∧
      (∀ a b, Event.rename a b ∉ pre) ∧
      Event.save_as demo_temp ∈ pre ∧ demo_argv[1]? = some demo_filename ∧
      scan_loop demo_world.session_original 0 0 = some (byte_count, crc) ∧
      1024 ≤ byte_count ∧ 0 ≤ demo_world.save_as ∧
      scan_loop demo_world.session_temp 0 0 = some (byte_count, crc) :=
  have hmem : Event.rename demo_temp demo_filename ∈ (main demo_world demo_argv).2 := by
    rw [demo_run]
    decide
  ⟨hmem, (rename_only_after_verification demo_world demo_argv).2 demo_temp demo_filename hmem⟩

/-- Witness of `byte_count_exact_within_int`: one buffer of 1024 bytes. -/
theorem byte_count_exact_within_int_witness :
    (∀ b ∈ [GrooveBuffer.mk (some demo_audio) 1024], b.well_formed) ∧
    session_total [GrooveBuffer.mk (some demo_audio) 1024] < 2 ^ 31 ∧
    ∃ crc, scan_loop [GrooveBuffer.mk (some demo_audio) 1024] 0 0
      = some (session_total [GrooveBuffer.mk (some demo_audio) 1024], crc) :=
  have hwf : ∀ b ∈ [GrooveBuffer.mk (some demo_audio) 1024], b.well_formed :=
    fun b hb => ⟨by rw [List.mem_singleton.mp hb]; decide,
      Or.inr (carries_data_one demo_audio 1024 demo_audio_length b hb)⟩
  ⟨hwf, by decide, (byte_count_exact_within_int _ hwf (by decide)).1⟩

end MetadataChecksum
